import Mathlib

/-!
Verification of the pattern-rewrite scripts of this repository
(`fix_all_db_paths.py`, `fix_commands.py`, `fix_commands2.py`,
`fix_db_paths_v2.py`).  Each script reads `src/commands.rs`, applies one or
two `re.sub` substitutions, and writes the result back unconditionally.

The embedding models Python's `re` engine for the exact regex constructs the
scripts use: literal runs, greedy character-class stars (`\s*`, `[^)]*`),
a greedy capture plus (`(\w+)`), a greedy optional character (`\)?`), and
leftmost scanning with replacement of all non-overlapping matches
(`re.sub`).  Greedy backtracking is modelled faithfully: a star tries the
longest consumption first, an optional atom tries presence first.
Characters are `Char`; documents are `List Char`.  `\w` and `\s` are
modelled by their ASCII meaning (the documents are ASCII Rust source).
-/

/-- Documents and text fragments are lists of characters. -/
abbrev Str := List Char

/-- Python `\s` (ASCII): space, tab, newline, carriage return, vertical tab, form feed. -/
def wsP (c : Char) : Bool :=
  c == ' ' || c == '\t' || c == '\n' || c == '\r' || c == '\x0b' || c == '\x0c'

/-- Python `\w` (ASCII): letters, digits, underscore. -/
def wordP (c : Char) : Bool := c.isAlphanum || c == '_'

/-- Python `[^)]`: any character except a closing parenthesis. -/
def nonRP (c : Char) : Bool := !(c == ')')

/-- One atom of a linear regular expression, covering exactly the constructs
appearing in the scripts' patterns. -/
inductive Atom where
  | lit (cs : Str)
  | star (p : Char → Bool)
  | grpStar (p : Char → Bool)
  | grpPlus (p : Char → Bool)
  | opt (c : Char)

/-- First `some` result of `f` over a list, in list order. -/
def firstSome? (f : α → Option β) : List α → Option β
  | [] => none
  | a :: as =>
    match f a with
    | some b => some b
    | none => firstSome? f as

/-- The list `[n, n-1, ..., 0]`: candidate consumption lengths for a greedy
star, longest first, as Python's backtracking tries them. -/
def descRange : Nat → List Nat
  | 0 => [0]
  | n + 1 => (n + 1) :: descRange n

/-- Greedy backtracking matcher for a linear atom sequence, anchored at the
start of `s`.  Returns the captures (in group order) and the number of
characters consumed, exactly as Python's engine would choose them:
stars longest-first, the optional atom with the character first. -/
def matchAtoms : List Atom → Str → Option (List Str × Nat)
  | [] => fun _ => some ([], 0)
  | .lit cs :: rest =>
    let m := matchAtoms rest
    fun s =>
      if cs.isPrefixOf s then
        (m (s.drop cs.length)).map fun r => (r.1, cs.length + r.2)
      else none
  | .star p :: rest =>
    let m := matchAtoms rest
    fun s =>
      firstSome? (fun k => (m (s.drop k)).map fun r => (r.1, k + r.2))
        (descRange (s.takeWhile p).length)
  | .grpStar p :: rest =>
    let m := matchAtoms rest
    fun s =>
      firstSome? (fun k => (m (s.drop k)).map fun r => (s.take k :: r.1, k + r.2))
        (descRange (s.takeWhile p).length)
  | .grpPlus p :: rest =>
    let m := matchAtoms rest
    fun s =>
      firstSome?
        (fun k =>
          if k == 0 then none
          else (m (s.drop k)).map fun r => (s.take k :: r.1, k + r.2))
        (descRange (s.takeWhile p).length)
  | .opt c :: rest =>
    let m := matchAtoms rest
    fun s =>
      match s with
      | [] => m []
      | c2 :: s2 =>
        if c2 == c then
          match m s2 with
          | some r => some (r.1, 1 + r.2)
          | none => m (c2 :: s2)
        else m (c2 :: s2)

/-- Leftmost match: scan positions left to right, return the first position
where the matcher succeeds, as `(prefix, captures, matched, rest)`. -/
def findFirst (pat : List Atom) : Str → Option (Str × List Str × Str × Str)
  | [] =>
    match matchAtoms pat [] with
    | some (caps, _) => some ([], caps, [], [])
    | none => none
  | c :: s2 =>
    match matchAtoms pat (c :: s2) with
    | some (caps, n) => some ([], caps, (c :: s2).take n, (c :: s2).drop n)
    | none =>
      match findFirst pat s2 with
      | some (pre, caps, mtxt, rest) => some (c :: pre, caps, mtxt, rest)
      | none => none

/-- One item of a replacement template: literal text or a backreference
`\i` (1-based group index). -/
inductive TIt where
  | str (cs : Str)
  | grp (i : Nat)

/-- Instantiate a template with the captures of a match (Python substitutes
the captured text verbatim for each backreference). -/
def instT (tmpl : List TIt) (caps : List Str) : Str :=
  match tmpl with
  | [] => []
  | .str cs :: rest => cs ++ instT rest caps
  | .grp i :: rest => caps.getD (i - 1) [] ++ instT rest caps

/-- Fuelled core of `re.subn`: replace every non-overlapping match, scanning
left to right; after an empty match, copy one character and continue
(Python 3.7+ behaviour).  Returns the new text and the substitution count.
The fuel only bounds recursion depth; `s.length + 1` always suffices. -/
def subnF (pat : List Atom) (tmpl : List TIt) : Nat → Str → Str × Nat
  | 0, s => (s, 0)
  | fuel + 1, s =>
    match findFirst pat s with
    | none => (s, 0)
    | some (pre, caps, [], rest) =>
      match rest with
      | [] => (pre ++ instT tmpl caps, 1)
      | c :: rs =>
        let r := subnF pat tmpl fuel rs
        (pre ++ instT tmpl caps ++ c :: r.1, r.2 + 1)
    | some (pre, caps, _ :: _, rest) =>
      let r := subnF pat tmpl fuel rest
      (pre ++ instT tmpl caps ++ r.1, r.2 + 1)

/-- Python `re.subn pattern template s`: rewritten text and substitution count. -/
def subn (pat : List Atom) (tmpl : List TIt) (s : Str) : Str × Nat :=
  subnF pat tmpl (s.length + 1) s

/-- Fuelled list of all matches chosen by `re.sub`, as `(absolute start, length)`
pairs, in the order the scanner selects them. -/
def findAllF (pat : List Atom) : Nat → Nat → Str → List (Nat × Nat)
  | 0, _, _ => []
  | fuel + 1, off, s =>
    match findFirst pat s with
    | none => []
    | some (pre, _, [], rest) =>
      match rest with
      | [] => [(off + pre.length, 0)]
      | _ :: rs => (off + pre.length, 0) :: findAllF pat fuel (off + pre.length + 1) rs
    | some (pre, _, mc :: mtl, rest) =>
      (off + pre.length, (mc :: mtl).length) :: findAllF pat fuel (off + pre.length + (mc :: mtl).length) rest

/-- All matches selected by a single `re.sub` pass over `s`. -/
def findAllPos (pat : List Atom) (s : Str) : List (Nat × Nat) :=
  findAllF pat (s.length + 1) 0 s

/-! ### The four scripts' patterns, faithful to the regex source text.

`fix_all_db_paths.py` line 8: the pattern alternates literal runs with `\s*`
gaps; note that `\}\)?;` makes the parenthesis *optional* (the `?` is an
unescaped quantifier), so the chunk before the semicolon is `}` with an
optional `)`. -/

/-- Chunk `let app_data_dir = app\.path\(\)\.app_data_dir\(\)` of the pattern. -/
def sA1 : Str := "let app_data_dir = app.path().app_data_dir()".data

/-- Chunk `\.map_err\(\|e\| \{`. -/
def sA2 : Str := ".map_err(|e| \x7b".data

/-- Chunk `logger\.error\(&format!\("Failed to get app data directory: \{\}", e\)\);`. -/
def sA3 : Str := "logger.error(&format!(\"Failed to get app data directory: \x7b\x7d\", e));".data

/-- Chunk `e\.to_string\(\)`. -/
def sA4 : Str := "e.to_string()".data

/-- Chunk `let db_path = app_data_dir\.join\("novel_studio\.db"\);`. -/
def sA6 : Str := "let db_path = app_data_dir.join(\"novel_studio.db\");".data

/-- The `fix_all_db_paths.py` pattern (line 8). -/
def patAtomsA : List Atom :=
  [.lit sA1, .star wsP, .lit sA2, .star wsP, .lit sA3, .star wsP,
   .lit sA4, .star wsP, .lit "\x7d".data, .opt ')', .lit ";".data,
   .star wsP, .lit sA6]

/-- The `fix_all_db_paths.py` replacement `let db_path = get_db_path(&app)?;` (line 10). -/
def repA : Str := "let db_path = get_db_path(&app)?;".data

/-- Replacement template of `fix_all_db_paths.py` (no backreferences). -/
def tmplA : List TIt := [.str repA]

/-- Literal `pub async fn ` opening the first `fix_commands.py` pattern. -/
def sPub : Str := "pub async fn ".data

/-- Literal `db_path: State<'_, DbPath>` of the first `fix_commands.py` pattern. -/
def sDb : Str := "db_path: State<\x27_, DbPath>".data

/-- First `fix_commands.py` pattern (lines 8-11):
`pub async fn (\w+)\([^)]*db_path: State<'_, DbPath>([^)]*)`. -/
def patAtomsR1 : List Atom :=
  [.lit sPub, .grpPlus wordP, .lit "(".data, .star nonRP, .lit sDb, .grpStar nonRP]

/-- Fixed middle of the first `fix_commands.py` replacement
(`\1` and `\2` around it; `\n` is a newline in a `re.sub` template). -/
def sHandle : Str := "(\n    app: AppHandle,".data

/-- First `fix_commands.py` replacement template `pub async fn \1(\n    app: AppHandle,\2`. -/
def tmplR1 : List TIt := [.str sPub, .grp 1, .str sHandle, .grp 2]

/-- Second `fix_commands.py` pattern `get_connection\(db_path\.as_path\(\)\)` (line 15). -/
def sConn : Str := "get_connection(db_path.as_path())".data

/-- Second `fix_commands.py` pattern as atoms (a pure literal). -/
def patAtomsR2 : List Atom := [.lit sConn]

/-- Second `fix_commands.py` replacement `get_connection(&get_db_path(&app)?)` (line 16). -/
def repR2 : Str := "get_connection(&get_db_path(&app)?)".data

/-- Second `fix_commands.py` replacement template. -/
def tmplR2 : List TIt := [.str repR2]

/-- Chunk `app\.path\(\)\.app_data_dir\(\)` of the `fix_commands2.py` pattern. -/
def sB1 : Str := "app.path().app_data_dir()".data

/-- Chunk `map_err\(\|e\| \{` of the `fix_commands2.py` pattern (the dot before
`map_err` is separated by `\s*\.\s*` there). -/
def sB2 : Str := "map_err(|e| \x7b".data

/-- The `fix_commands2.py` pattern (line 8). -/
def patAtomsB : List Atom :=
  [.lit sB1, .star wsP, .lit ".".data, .star wsP, .lit sB2, .star wsP, .lit sA3,
   .star wsP, .lit sA4, .star wsP, .lit "\x7d".data, .opt ')', .lit ";".data,
   .star wsP, .lit sA6]

/-- The `fix_commands2.py` replacement `let db_path = get_db_path(&app)?`
(line 9; no trailing semicolon). -/
def repB : Str := "let db_path = get_db_path(&app)?".data

/-- Replacement template of `fix_commands2.py`. -/
def tmplB : List TIt := [.str repB]

/-- First literal chunk of the `fix_db_paths_v2.py` pattern (lines 8-13): the
raw triple-quoted pattern contains literal newlines and indentation, with no
`\s*` gaps, up to the `\}` before the optional parenthesis. -/
def sV2a : Str :=
  ("    let app_data_dir = app.path().app_data_dir()\n        .map_err(|e| \x7b\n            logger.error(&format!(\"Failed to get app data directory: \x7b\x7d\", e));\n            e.to_string()\n        \x7d").data

/-- Second literal chunk of the `fix_db_paths_v2.py` pattern, after `\)?`. -/
def sV2b : Str :=
  (";\n    let db_path = app_data_dir.join(\"novel_studio.db\");").data

/-- The `fix_db_paths_v2.py` pattern. -/
def patAtomsV2 : List Atom := [.lit sV2a, .opt ')', .lit sV2b]

/-- The `fix_db_paths_v2.py` replacement (line 15). -/
def repV2 : Str := "    let db_path = get_db_path(&app)?;".data

/-- Replacement template of `fix_db_paths_v2.py`. -/
def tmplV2 : List TIt := [.str repV2]

/-! ### Script-level model: read, substitutions in order, unconditional write.

Each script is straight-line Python: open/read the whole file, run its
`re.sub` calls on the in-memory string, then open the file for writing and
write the result.  A raised exception aborts the remaining statements.  The
only exception the hot path can raise is `re.error: invalid group reference`
when a replacement template names a group the pattern does not define;
Python validates the template before scanning, so this is independent of
the document. -/

/-- One substitution rule: a pattern and a replacement template. -/
structure Rule where
  pat : List Atom
  tmpl : List TIt

/-- Number of capture groups a pattern defines. -/
def ngroups : List Atom → Nat
  | [] => 0
  | .grpStar _ :: rest => ngroups rest + 1
  | .grpPlus _ :: rest => ngroups rest + 1
  | _ :: rest => ngroups rest

/-- Largest group index a template references. -/
def tmplMaxGrp : List TIt → Nat
  | [] => 0
  | .str _ :: rest => tmplMaxGrp rest
  | .grp i :: rest => max i (tmplMaxGrp rest)

/-- Python's `re.error` message for a template backreference with no
corresponding group. -/
def groupRefErr (i : Nat) : Str := "invalid group reference ".data ++ (toString i).data

/-- `re.subn` including Python's upfront template validation: a template
referencing an absent group raises before any scanning happens. -/
def reSubnE (r : Rule) (s : Str) : Except Str (Str × Nat) :=
  if tmplMaxGrp r.tmpl ≤ ngroups r.pat then .ok (subn r.pat r.tmpl s)
  else .error (groupRefErr (tmplMaxGrp r.tmpl))

/-- One statement of a rewrite script. -/
inductive Stmt where
  | readFile
  | substRule (r : Rule)
  | writeFile

/-- Interpreter state: the on-disk file content, the in-memory string
variable, the substitution counts produced so far, and how many writes
have happened. -/
structure PState where
  disk : Str
  buf : Str
  counts : List Nat
  writes : Nat
deriving DecidableEq

/-- Execute one statement. -/
def stepStmt : Stmt → PState → Except Str PState
  | .readFile, st => .ok { st with buf := st.disk }
  | .substRule r, st =>
    match reSubnE r st.buf with
    | .ok p => .ok { st with buf := p.1, counts := st.counts ++ [p.2] }
    | .error e => .error e
  | .writeFile, st => .ok { st with disk := st.buf, writes := st.writes + 1 }

/-- Run statements in order; an exception stops the script, keeping the
state reached so far (in particular the on-disk content at that point). -/
def runStmts : List Stmt → PState → PState × Option Str
  | [], st => (st, none)
  | stm :: rest, st =>
    match stepStmt stm st with
    | .ok st2 => runStmts rest st2
    | .error e => (st, some e)

/-- The statement list of a script with the given rules: read the file,
apply each `re.sub` in order, write the file. -/
def scriptStmts (rules : List Rule) : List Stmt :=
  .readFile :: rules.map .substRule ++ [.writeFile]

/-- Run a whole script on a file with the given initial content. -/
def runScript (rules : List Rule) (file : Str) : PState × Option Str :=
  runStmts (scriptStmts rules) { disk := file, buf := [], counts := [], writes := 0 }

/-- The single rule of `fix_all_db_paths.py`. -/
def ruleA : Rule := ⟨patAtomsA, tmplA⟩

/-- The first rule of `fix_commands.py`. -/
def ruleR1 : Rule := ⟨patAtomsR1, tmplR1⟩

/-- The second rule of `fix_commands.py`. -/
def ruleR2 : Rule := ⟨patAtomsR2, tmplR2⟩

/-- The single rule of `fix_commands2.py`. -/
def ruleB : Rule := ⟨patAtomsB, tmplB⟩

/-- The single rule of `fix_db_paths_v2.py`. -/
def ruleV2 : Rule := ⟨patAtomsV2, tmplV2⟩

/-- Catalog of `fix_all_db_paths.py`. -/
def fixAllDbPathsRules : List Rule := [ruleA]

/-- Catalog of `fix_commands.py` (two rules, applied in source order). -/
def fixCommandsRules : List Rule := [ruleR1, ruleR2]

/-- Catalog of `fix_commands2.py`. -/
def fixCommands2Rules : List Rule := [ruleB]

/-- Catalog of `fix_db_paths_v2.py`. -/
def fixDbPathsV2Rules : List Rule := [ruleV2]

/-- Number of occurrences of a character in a text. -/
def countCh (c : Char) (s : Str) : Nat := s.countP fun x => x == c

/-- Modelled from the spec: the plausibility check of section 4.5 — the
counts of the three delimiter pairs must each balance.  No script in the
repository implements any such check; this definition exists only to state
claims about it. -/
def balancedDelims (s : Str) : Bool :=
  (countCh '(' s == countCh ')' s) &&
  (countCh '\x7b' s == countCh '\x7d' s) &&
  (countCh '[' s == countCh ']' s)

/-! ### Fixpoint coordinator, modelled from the spec (section 4.4). -/

/-- Outcome of the fixpoint mode. -/
inductive FixOutcome where
  | converged (doc : Str) (iters : Nat)
  | nonConverged (doc : Str) (iters : Nat)
deriving DecidableEq

/-- One single pass of a catalog: apply every rule once, in order, each
against the snapshot produced by the previous rule; also the total
substitution count of the pass. -/
def catalogPass (rules : List Rule) (s : Str) : Str × Nat :=
  match rules with
  | [] => (s, 0)
  | r :: rest =>
    let p := subn r.pat r.tmpl s
    let q := catalogPass rest p.1
    (q.1, p.2 + q.2)

/-- Modelled from the spec: the fixpoint mode of the Pass Coordinator, which
no script in the repository implements.  Repeat single passes until a pass
makes zero substitutions, or until the iteration cap is exhausted; exceeding
the cap reports non-convergence carrying the partially rewritten document
and the iteration count. -/
def runFixpoint (pass : Str → Str × Nat) : Nat → Nat → Str → FixOutcome
  | 0, done, d => .nonConverged d done
  | fuel + 1, done, d =>
    let p := pass d
    if p.2 == 0 then .converged d done
    else runFixpoint pass fuel (done + 1) p.1

/-- The document after `n` passes. -/
def iteratePass (pass : Str → Str × Nat) : Nat → Str → Str
  | 0, d => d
  | n + 1, d => iteratePass pass n (pass d).1

/-- Modelled from the spec: the default iteration cap of fixpoint mode. -/
def fixpointDefaultCap : Nat := 5

/-! ### Relational match semantics and substring predicates. -/

/-- `u` occurs at the start of `t`. -/
def PreOf (u t : Str) : Prop := ∃ w, t = u ++ w

/-- `u` occurs at the end of `t`. -/
def SufOf (u t : Str) : Prop := ∃ w, t = w ++ u

/-- `u` occurs somewhere inside `t`. (Named to avoid the arithmetic typeclass.) -/
def SubOf (u t : Str) : Prop := ∃ x y, t = x ++ u ++ y

/-- Declarative (nondeterministic) semantics of a linear atom sequence:
`Matches atoms m caps` holds when `m` can be split along the atoms, with
`caps` the captured pieces in group order.  `matchAtoms` finds a match
exactly when some split exists; its greedy choice picks a particular one. -/
inductive Matches : List Atom → Str → List Str → Prop
  | nil : Matches [] [] []
  | lit {cs : Str} {rest : List Atom} {t : Str} {caps : List Str} :
      Matches rest t caps → Matches (.lit cs :: rest) (cs ++ t) caps
  | star {p : Char → Bool} {rest : List Atom} {u t : Str} {caps : List Str} :
      (∀ c ∈ u, p c = true) → Matches rest t caps →
      Matches (.star p :: rest) (u ++ t) caps
  | grpStar {p : Char → Bool} {rest : List Atom} {u t : Str} {caps : List Str} :
      (∀ c ∈ u, p c = true) → Matches rest t caps →
      Matches (.grpStar p :: rest) (u ++ t) (u :: caps)
  | grpPlus {p : Char → Bool} {rest : List Atom} {u t : Str} {caps : List Str} :
      u ≠ [] → (∀ c ∈ u, p c = true) → Matches rest t caps →
      Matches (.grpPlus p :: rest) (u ++ t) (u :: caps)
  | optY {c : Char} {rest : List Atom} {t : Str} {caps : List Str} :
      Matches rest t caps → Matches (.opt c :: rest) (c :: t) caps
  | optN {c : Char} {rest : List Atom} {t : Str} {caps : List Str} :
      Matches rest t caps → Matches (.opt c :: rest) t caps

/-- Some split of `t` contains a match of the pattern. -/
def Occurs (pat : List Atom) (t : Str) : Prop :=
  ∃ x m y caps, t = x ++ m ++ y ∧ Matches pat m caps

/-- The mandatory part of the first `fix_commands.py` pattern: everything up
to and including the literal `db_path: State<'_, DbPath>`.  Since the final
`([^)]*)` group may capture the empty string, the full pattern matches
somewhere precisely when this core does. -/
def patAtomsR1core : List Atom :=
  [.lit sPub, .grpPlus wordP, .lit "(".data, .star nonRP, .lit sDb]

/-- Boolean check refuting every way a nonempty text can be simultaneously a
suffix of `X` and a prefix of `Y` (used to kill matches straddling a
replacement boundary). -/
def noMeetB (X Y : Str) : Bool :=
  (List.range (X.length + 1)).all fun k =>
    k == 0 || !(X.drop (X.length - k) == Y.take k)

/-- The whitespace-free fragment `get_db_path(&app)?;` of the
`fix_all_db_paths.py` replacement. -/
def fragA : Str := "get_db_path(&app)?;".data

/-- The chunks of the `fix_all_db_paths.py` pattern concatenated with all
`\s*` gaps empty and the optional parenthesis instantiated to `op`. -/
def concatA (op : Str) : Str :=
  sA1 ++ sA2 ++ sA3 ++ sA4 ++ "\x7d".data ++ op ++ ";".data ++ sA6

/-! ### Concrete documents for the spec's scenarios and witnesses. -/

/-- The obsolete idiom up to the closing brace of the `map_err` closure. -/
def idiomPre : Str :=
  ("let app_data_dir = app.path().app_data_dir()\n    .map_err(|e| \x7b\n        logger.error(&format!(\"Failed to get app data directory: \x7b\x7d\", e));\n        e.to_string()\n    ").data

/-- The final line of the obsolete idiom. -/
def idiomSuf : Str :=
  ("\nlet db_path = app_data_dir.join(\"novel_studio.db\");").data

/-- The obsolete idiom with the non-fallible `});` ending. -/
def docIdiomN : Str := idiomPre ++ "\x7d);".data ++ idiomSuf

/-- The obsolete idiom with the fallible `})?;` ending (the form the real
`commands.rs` uses, since `map_err` produces a `Result`). -/
def docIdiomF : Str := idiomPre ++ "\x7d)?;".data ++ idiomSuf

/-- Context before the first call site in the two-site document. -/
def docPre4 : Str := "fn a() \x7b\n".data

/-- Context between the two call sites. -/
def docMid4 : Str := "\nmore();\n".data

/-- Context after the second call site. -/
def docSuf4 : Str := "\n\x7d".data

/-- A document with the idiom at two non-adjacent call sites. -/
def docTwo : Str := docPre4 ++ docIdiomN ++ docMid4 ++ docIdiomN ++ docSuf4

/-- A document containing no occurrence of any script's pattern. -/
def docNone : Str := "fn main() \x7b\x7d".data

/-- A delimiter-balanced document whose rewrite by `fix_all_db_paths.py` is
delimiter-unbalanced: the idiom with every `\s*` gap empty and the optional
parenthesis absent, followed by a stray `)` that balances the braces-only
closure ending. -/
def docUnbal : Str := concatA [] ++ ")".data

/-- A signature with a parameter before `db_path`, which the first
`fix_commands.py` rule's uncaptured `[^)]*` gap swallows and drops. -/
def docGap : Str :=
  "pub async fn f(extra: u32, db_path: State<\x27_, DbPath>) \x7b\x7d".data

/-- The parameter text dropped from `docGap` by the rewrite. -/
def droppedGap : Str := "extra: u32, ".data

/-- A realistic `fix_commands.py` document: a handler signature taking
`db_path` plus another parameter, and a `get_connection` call. -/
def docCmds : Str :=
  ("pub async fn get_novel(db_path: State<\x27_, DbPath>, id: i64) -> Result<Novel, String> \x7b\n    let conn = get_connection(db_path.as_path())?;\n\x7d").data

/-- A rule whose template references group 3 while its pattern defines only
two groups: Python's `re.sub` raises `invalid group reference` for it. -/
def badRule : Rule := ⟨patAtomsR1, [.str sPub, .grp 3]⟩

/-- A document containing a `get_connection(db_path.as_path())` call. -/
def docConn : Str := "x = get_connection(db_path.as_path());".data

/-- The match rule 1 of `fix_commands.py` finds in `docGap`. -/
def docGapM : Str := "pub async fn f(extra: u32, db_path: State<\x27_, DbPath>".data

/-- The text after that match in `docGap`. -/
def docGapRest : Str := ") \x7b\x7d".data

/-- Rule 1's output on `docGap`: the `extra: u32, ` parameter is gone. -/
def docGapOut : Str := "pub async fn f(\n    app: AppHandle,) \x7b\x7d".data

/-- The match rule 1 of `fix_commands.py` finds in `docCmds`. -/
def docCmdsM : Str :=
  "pub async fn get_novel(db_path: State<\x27_, DbPath>, id: i64".data

/-- The text after that match in `docCmds`. -/
def docCmdsRest : Str :=
  ") -> Result<Novel, String> \x7b\n    let conn = get_connection(db_path.as_path())?;\n\x7d".data

/-! ## Substring toolkit -/

theorem preOf_iff {u t : Str} : PreOf u t ↔ u <+: t := by
  constructor
  · rintro ⟨w, rfl⟩; exact ⟨w, rfl⟩
  · rintro ⟨w, h⟩; exact ⟨w, h.symm⟩

theorem sufOf_iff {u t : Str} : SufOf u t ↔ u <:+ t := by
  constructor
  · rintro ⟨w, rfl⟩; exact ⟨w, rfl⟩
  · rintro ⟨w, h⟩; exact ⟨w, h.symm⟩

theorem subOf_iff {u t : Str} : SubOf u t ↔ u <:+: t := by
  constructor
  · rintro ⟨x, y, rfl⟩; exact ⟨x, y, rfl⟩
  · rintro ⟨x, y, h⟩; exact ⟨x, y, h.symm⟩

theorem subOf_length_le {u t : Str} (h : SubOf u t) : u.length ≤ t.length := by
  obtain ⟨x, y, rfl⟩ := h; simp; omega

theorem mem_of_subOf {u t : Str} {c : Char} (h : SubOf u t) (hc : c ∈ u) : c ∈ t := by
  obtain ⟨x, y, rfl⟩ := h; simp [hc]

theorem subOf_trans {u v t : Str} (h1 : SubOf u v) (h2 : SubOf v t) : SubOf u t := by
  obtain ⟨x, y, rfl⟩ := h1; obtain ⟨a, b, rfl⟩ := h2
  exact ⟨a ++ x, y ++ b, by simp⟩

theorem subOf_append_left {u x y : Str} (h : SubOf u x) : SubOf u (x ++ y) := by
  obtain ⟨a, b, rfl⟩ := h; exact ⟨a, b ++ y, by simp⟩

theorem subOf_append_right {u x y : Str} (h : SubOf u y) : SubOf u (x ++ y) := by
  obtain ⟨a, b, rfl⟩ := h; exact ⟨x ++ a, b, by simp⟩

theorem subOf_of_preOf {u t : Str} (h : PreOf u t) : SubOf u t := by
  obtain ⟨w, rfl⟩ := h; exact ⟨[], w, rfl⟩

theorem subOf_of_sufOf {u t : Str} (h : SufOf u t) : SubOf u t := by
  obtain ⟨w, rfl⟩ := h; exact ⟨w, [], by simp⟩

theorem preOf_length_le {u t : Str} (h : PreOf u t) : u.length ≤ t.length := by
  obtain ⟨w, rfl⟩ := h; simp

theorem sufOf_length_le {u t : Str} (h : SufOf u t) : u.length ≤ t.length := by
  obtain ⟨w, rfl⟩ := h; simp

theorem preOf_take {u t : Str} (h : PreOf u t) : u = t.take u.length := by
  obtain ⟨w, rfl⟩ := h; simp [List.take_left]

theorem sufOf_drop {u t : Str} (h : SufOf u t) : u = t.drop (t.length - u.length) := by
  obtain ⟨w, rfl⟩ := h
  have : (w ++ u).length - u.length = w.length := by simp
  rw [this, List.drop_left]

theorem sufOf_getLast {u t : Str} (h : SufOf u t) (hu : u ≠ []) :
    t.getLast? = u.getLast? := by
  obtain ⟨w, rfl⟩ := h
  rw [List.getLast?_append]
  cases hg : u.getLast? with
  | none => exact absurd (List.getLast?_eq_none_iff.mp hg) hu
  | some a => simp

theorem mem_of_getLast? {u : Str} {c : Char} (h : u.getLast? = some c) : c ∈ u := by
  obtain ⟨ys, rfl⟩ := List.getLast?_eq_some_iff.mp h
  simp

/-- A nonempty text occurring both at the end of `X` and at the start of `Y`
is refuted by the finite check `noMeetB X Y`. -/
theorem noMeet {X Y : Str} (h : noMeetB X Y = true) :
    ∀ u : Str, u ≠ [] → SufOf u X → PreOf u Y → False := by
  intro u hu hsuf hpre
  have hk : u.length ∈ List.range (X.length + 1) := by
    have := sufOf_length_le hsuf
    simp [List.mem_range]; omega
  have hall := List.all_eq_true.mp h _ hk
  have hne : (u.length == 0) = false := by
    simp only [beq_eq_false_iff_ne, ne_eq]
    intro h0
    exact hu (List.length_eq_zero.mp h0)
  rw [hne, Bool.false_or, Bool.not_eq_true', beq_eq_false_iff_ne] at hall
  exact hall ((sufOf_drop hsuf).symm.trans (preOf_take hpre))

/-- How a block `m` of the left-hand decomposition sits relative to a pair
`a ++ d`: wholly inside `a`, wholly inside `d`, or straddling the border. -/
theorem splitPair {a d x m y : Str} (h : x ++ m ++ y = a ++ d) :
    (∃ y₁, a = x ++ m ++ y₁ ∧ y = y₁ ++ d)
  ∨ (∃ x₁, d = x₁ ++ m ++ y ∧ x = a ++ x₁)
  ∨ (∃ m₁ m₂, m = m₁ ++ m₂ ∧ m₁ ≠ [] ∧ m₂ ≠ [] ∧ a = x ++ m₁ ∧ d = m₂ ++ y) := by
  rw [List.append_assoc] at h
  rcases List.append_eq_append_iff.mp h with ⟨a1, ha, hmy⟩ | ⟨c1, hx, hd⟩
  · rcases List.append_eq_append_iff.mp hmy with ⟨b1, ha1, hy⟩ | ⟨d1, hm, hdd⟩
    · exact Or.inl ⟨b1, by rw [ha, ha1, List.append_assoc], hy⟩
    · rcases eq_or_ne a1 [] with rfl | ha1ne
      · simp only [List.nil_append] at hm
        right; left
        refine ⟨[], ?_, ?_⟩
        · rw [hdd, hm]; rfl
        · rw [ha]; simp
      · rcases eq_or_ne d1 [] with rfl | hd1ne
        · simp only [List.append_nil] at hm
          left
          refine ⟨[], ?_, ?_⟩
          · rw [ha, hm]; simp
          · rw [hdd]; simp
        · exact Or.inr (Or.inr ⟨a1, d1, hm, ha1ne, hd1ne, ha, hdd⟩)
  · exact Or.inr (Or.inl ⟨c1, by rw [hd, List.append_assoc], hx⟩)

/-- How an occurrence `m` sits relative to a triple `a ++ b ++ c`: inside one
of the three regions, straddling one border, or covering all of `b`. -/
theorem occSplit {a b c x m y : Str} (h : x ++ m ++ y = a ++ b ++ c) :
    SubOf m a ∨ SubOf m b ∨ SubOf m c
  ∨ (∃ m₁ m₂ x₁ y₁, m = m₁ ++ m₂ ∧ m₁ ≠ [] ∧ m₂ ≠ [] ∧ a = x₁ ++ m₁ ∧ b = m₂ ++ y₁)
  ∨ (∃ m₁ m₂ x₁ y₁, m = m₁ ++ m₂ ∧ m₁ ≠ [] ∧ m₂ ≠ [] ∧ b = x₁ ++ m₁ ∧ c = m₂ ++ y₁)
  ∨ (∃ m₁ m₃ x₁ y₁, m = m₁ ++ b ++ m₃ ∧ m₁ ≠ [] ∧ m₃ ≠ [] ∧ a = x₁ ++ m₁ ∧ c = m₃ ++ y₁) := by
  have h' : x ++ m ++ y = a ++ (b ++ c) := by rw [h, List.append_assoc]
  rcases splitPair h' with ⟨y₁, ha, _⟩ | ⟨x₁, hbc, _⟩ | ⟨m₁, m₂, hm, hm₁, hm₂, ha, hbc⟩
  · exact Or.inl ⟨x, y₁, ha⟩
  · rcases splitPair hbc.symm with ⟨y₂, hb, _⟩ | ⟨x₂, hc, hx₁⟩ | ⟨n₁, n₂, hmn, hn₁, hn₂, hb, hc⟩
    · exact Or.inr (Or.inl ⟨x₁, y₂, hb⟩)
    · exact Or.inr (Or.inr (Or.inl ⟨x₂, y, hc⟩))
    · exact Or.inr (Or.inr (Or.inr (Or.inr (Or.inl
        ⟨n₁, n₂, x₁, y, hmn, hn₁, hn₂, hb, hc⟩))))
  · have hbc' : [] ++ m₂ ++ y = b ++ c := by simpa using hbc.symm
    rcases splitPair hbc' with ⟨y₁, hb, _⟩ | ⟨x₂, hc, hx₂⟩ | ⟨n₁, n₂, hmn, hn₁, hn₂, hb, hc⟩
    · exact Or.inr (Or.inr (Or.inr (Or.inl
        ⟨m₁, m₂, x, y₁, hm, hm₁, hm₂, ha, by simpa using hb⟩)))
    · have hb0 : b = [] := (List.append_eq_nil.mp hx₂.symm).1
      have hx₂0 : x₂ = [] := (List.append_eq_nil.mp hx₂.symm).2
      refine Or.inr (Or.inr (Or.inr (Or.inr (Or.inr
        ⟨m₁, m₂, x, y, ?_, hm₁, hm₂, ha, ?_⟩))))
      · rw [hm, hb0]; simp
      · rw [hc, hx₂0]; simp
    · have hb' : b = n₁ := by simpa using hb
      refine Or.inr (Or.inr (Or.inr (Or.inr (Or.inr
        ⟨m₁, n₂, x, y, ?_, hm₁, hn₂, ha, hc⟩))))
      rw [hm, hmn, hb']; simp

/-- A text free of `q`-characters occurring in `x ++ w ++ y` with `w` all
`q`-characters occurs already in `x ++ y`: removing a gap preserves it. -/
theorem dropGap {q : Char → Bool} {t x w y : Str} (ht : t ≠ [])
    (hqt : ∀ c ∈ t, q c = false) (hw : ∀ c ∈ w, q c = true)
    (h : SubOf t (x ++ w ++ y)) : SubOf t (x ++ y) := by
  obtain ⟨x₀, y₀, hocc⟩ := h
  have hchar : ∀ c : Char, c ∈ t → c ∈ w → False := fun c hct hcw => by
    have := hqt c hct; rw [hw c hcw] at this; exact absurd this (by simp)
  rcases occSplit hocc.symm with hin | hin | hin | hin | hin | hin
  · exact subOf_append_left hin
  · obtain ⟨ct, ts, rfl⟩ : ∃ ct ts, t = ct :: ts := by
      cases t with
      | nil => exact absurd rfl ht
      | cons a l => exact ⟨a, l, rfl⟩
    exact absurd (hchar ct (by simp) (mem_of_subOf hin (by simp))) not_false
  · exact subOf_append_right hin
  · obtain ⟨t₁, t₂, _, y₁, hm, _, ht₂, _, hb⟩ := hin
    obtain ⟨c2, t₂', rfl⟩ : ∃ c2 t₂', t₂ = c2 :: t₂' := by
      cases t₂ with
      | nil => exact absurd rfl ht₂
      | cons a l => exact ⟨a, l, rfl⟩
    have hcw : c2 ∈ w := by rw [hb]; simp
    have hct : c2 ∈ t := by rw [hm]; simp
    exact absurd (hchar c2 hct hcw) not_false
  · obtain ⟨t₁, t₂, x₁, _, hm, ht₁, _, hb, _⟩ := hin
    obtain ⟨c1, t₁', rfl⟩ : ∃ c1 t₁', t₁ = c1 :: t₁' := by
      cases t₁ with
      | nil => exact absurd rfl ht₁
      | cons a l => exact ⟨a, l, rfl⟩
    have hcw : c1 ∈ w := by rw [hb]; simp
    have hct : c1 ∈ t := by rw [hm]; simp
    exact absurd (hchar c1 hct hcw) not_false
  · obtain ⟨t₁, t₃, x₁, y₁, hm, _, _, ha, hc⟩ := hin
    rcases eq_or_ne w [] with rfl | hwne
    · refine ⟨x₁, y₁, ?_⟩
      rw [ha, hc, hm]
      simp
    · obtain ⟨cw, w', rfl⟩ : ∃ cw w', w = cw :: w' := by
        cases w with
        | nil => exact absurd rfl hwne
        | cons a l => exact ⟨a, l, rfl⟩
      have hct : cw ∈ t := by rw [hm]; simp
      exact absurd (hchar cw hct (by simp)) not_false

/-! ## Matcher semantics: the executable matcher agrees with `Matches` -/

theorem take_append_take {u w : Str} {n : Nat} :
    (u ++ w).take (u.length + n) = u ++ w.take n := by
  induction u with
  | nil => simp
  | cons a l ih => simpa [Nat.succ_add] using ih

theorem firstSome?_isSome {α β : Type} {f : α → Option β} {l : List α} {a : α}
    (ha : a ∈ l) (hs : (f a).isSome) : (firstSome? f l).isSome := by
  induction l with
  | nil => simp at ha
  | cons x xs ih =>
    cases hfx : f x with
    | some b => simp [firstSome?, hfx]
    | none =>
      rcases List.mem_cons.mp ha with rfl | hmem
      · rw [hfx] at hs; simp at hs
      · simpa [firstSome?, hfx] using ih hmem

theorem firstSome?_split {α β : Type} {f : α → Option β} {l : List α} {b : β}
    (h : firstSome? f l = some b) :
    ∃ l₁ a l₂, l = l₁ ++ a :: l₂ ∧ f a = some b ∧ ∀ x ∈ l₁, f x = none := by
  induction l with
  | nil => simp [firstSome?] at h
  | cons x xs ih =>
    cases hfx : f x with
    | some b' =>
      have hb : b' = b := by
        have := h
        simp only [firstSome?, hfx] at this
        exact Option.some_inj.mp this
      exact ⟨[], x, xs, rfl, by rw [hfx, hb], by simp⟩
    | none =>
      have h' : firstSome? f xs = some b := by
        have := h
        simpa only [firstSome?, hfx] using this
      obtain ⟨l₁, a, l₂, rfl, hfa, hnone⟩ := ih h'
      refine ⟨x :: l₁, a, l₂, rfl, hfa, ?_⟩
      intro z hz
      rcases List.mem_cons.mp hz with rfl | hz'
      · exact hfx
      · exact hnone z hz'

theorem mem_descRange {n k : Nat} : k ∈ descRange n ↔ k ≤ n := by
  induction n with
  | zero => simp [descRange]
  | succ n ih => simp [descRange, ih]; omega

theorem descRange_pairwise (n : Nat) :
    List.Pairwise (fun a b => b < a) (descRange n) := by
  induction n with
  | zero => simp [descRange]
  | succ n ih =>
    rw [descRange, List.pairwise_cons]
    exact ⟨fun x hx => by rw [mem_descRange] at hx; omega, ih⟩

theorem gt_of_descRange_split {n k : Nat} {l₁ l₂ : List Nat}
    (h : descRange n = l₁ ++ k :: l₂) : ∀ x ∈ l₁, k < x := by
  have hp := descRange_pairwise n
  rw [h] at hp
  have := (List.pairwise_append.mp hp).2.2
  exact fun x hx => this x hx k (by simp)

theorem all_take_of_le_takeWhile {p : Char → Bool} {s : Str} {k : Nat}
    (hk : k ≤ (s.takeWhile p).length) : ∀ c ∈ s.take k, p c = true := by
  intro c hc
  have hs : s.take k = (s.takeWhile p).take k := by
    conv_lhs => rw [← List.takeWhile_append_dropWhile (p := p) (l := s)]
    exact List.take_append_of_le_length hk
  rw [hs] at hc
  exact List.mem_takeWhile_imp (List.mem_of_mem_take hc)

theorem le_takeWhile_of_all_take {p : Char → Bool} {s : Str} {k : Nat}
    (hk : k ≤ s.length) (h : ∀ c ∈ s.take k, p c = true) :
    k ≤ (s.takeWhile p).length := by
  induction s generalizing k with
  | nil => simp at hk; omega
  | cons a l ih =>
    cases k with
    | zero => simp
    | succ k' =>
      have hpa : p a = true := h a (by simp)
      rw [List.takeWhile_cons_of_pos hpa]
      simp only [List.length_cons]
      have : k' ≤ (l.takeWhile p).length := by
        refine ih (by simpa using hk) ?_
        intro c hc
        exact h c (by simp [hc])
      omega

theorem length_takeWhile_le' (p : Char → Bool) (s : Str) :
    (s.takeWhile p).length ≤ s.length := by
  conv_rhs => rw [← List.takeWhile_append_dropWhile (p := p) (l := s)]
  rw [List.length_append]
  omega

theorem matchAtoms_sound :
    ∀ (atoms : List Atom) (s : Str) (caps : List Str) (n : Nat),
    matchAtoms atoms s = some (caps, n) →
    n ≤ s.length ∧ Matches atoms (s.take n) caps := by
  intro atoms
  induction atoms with
  | nil =>
    intro s caps n h
    simp only [matchAtoms, Option.some_inj, Prod.mk.injEq] at h
    obtain ⟨rfl, rfl⟩ := h
    exact ⟨Nat.zero_le _, by simpa using Matches.nil⟩
  | cons a rest ih =>
    cases a with
    | lit cs =>
      intro s caps n h
      simp only [matchAtoms] at h
      split at h
      case isTrue hpre =>
        rw [Option.map_eq_some'] at h
        obtain ⟨⟨caps', n'⟩, hm, heq⟩ := h
        obtain ⟨rfl, rfl⟩ := Prod.mk.injEq .. |>.mp heq
        obtain ⟨w, rfl⟩ : cs <+: s := List.isPrefixOf_iff_prefix.mp hpre
        obtain ⟨hle, hM⟩ := ih _ _ _ hm
        rw [List.drop_left] at hM hle
        constructor
        · simp; omega
        · rw [take_append_take]
          exact Matches.lit hM
      case isFalse => exact absurd h (by simp)
    | star p =>
      intro s caps n h
      simp only [matchAtoms] at h
      obtain ⟨l₁, k, l₂, hsplit, hk, _⟩ := firstSome?_split h
      rw [Option.map_eq_some'] at hk
      obtain ⟨⟨caps', n'⟩, hm, heq⟩ := hk
      obtain ⟨rfl, rfl⟩ := Prod.mk.injEq .. |>.mp heq
      have hkmem : k ∈ descRange ((s.takeWhile p).length) := by
        rw [hsplit]; simp
      have hkle : k ≤ (s.takeWhile p).length := mem_descRange.mp hkmem
      have hks : k ≤ s.length := hkle.trans (length_takeWhile_le' p s)
      obtain ⟨hle, hM⟩ := ih _ _ _ hm
      rw [List.length_drop] at hle
      refine ⟨by omega, ?_⟩
      have hlen : (s.take k).length = k := by rw [List.length_take]; omega
      have hsk : s.take (k + n') = s.take k ++ (s.drop k).take n' := by
        have h2 := take_append_take (u := s.take k) (w := s.drop k) (n := n')
        rw [hlen, List.take_append_drop] at h2
        exact h2
      rw [hsk]
      exact Matches.star (all_take_of_le_takeWhile hkle) hM
    | grpStar p =>
      intro s caps n h
      simp only [matchAtoms] at h
      obtain ⟨l₁, k, l₂, hsplit, hk, _⟩ := firstSome?_split h
      rw [Option.map_eq_some'] at hk
      obtain ⟨⟨caps', n'⟩, hm, heq⟩ := hk
      obtain ⟨rfl, rfl⟩ := Prod.mk.injEq .. |>.mp heq
      have hkmem : k ∈ descRange ((s.takeWhile p).length) := by
        rw [hsplit]; simp
      have hkle : k ≤ (s.takeWhile p).length := mem_descRange.mp hkmem
      have hks : k ≤ s.length := hkle.trans (length_takeWhile_le' p s)
      obtain ⟨hle, hM⟩ := ih _ _ _ hm
      rw [List.length_drop] at hle
      refine ⟨by omega, ?_⟩
      have hlen : (s.take k).length = k := by rw [List.length_take]; omega
      have hsk : s.take (k + n') = s.take k ++ (s.drop k).take n' := by
        have h2 := take_append_take (u := s.take k) (w := s.drop k) (n := n')
        rw [hlen, List.take_append_drop] at h2
        exact h2
      rw [hsk]
      exact Matches.grpStar (all_take_of_le_takeWhile hkle) hM
    | grpPlus p =>
      intro s caps n h
      simp only [matchAtoms] at h
      obtain ⟨l₁, k, l₂, hsplit, hk, _⟩ := firstSome?_split h
      split at hk
      case isTrue => exact absurd hk (by simp)
      case isFalse hk0 =>
        rw [Option.map_eq_some'] at hk
        obtain ⟨⟨caps', n'⟩, hm, heq⟩ := hk
        obtain ⟨rfl, rfl⟩ := Prod.mk.injEq .. |>.mp heq
        have hkmem : k ∈ descRange ((s.takeWhile p).length) := by
          rw [hsplit]; simp
        have hkle : k ≤ (s.takeWhile p).length := mem_descRange.mp hkmem
        have hks : k ≤ s.length := hkle.trans (length_takeWhile_le' p s)
        obtain ⟨hle, hM⟩ := ih _ _ _ hm
        rw [List.length_drop] at hle
        have hkne : k ≠ 0 := by simpa using hk0
        refine ⟨by omega, ?_⟩
        have hlen : (s.take k).length = k := by rw [List.length_take]; omega
        have hsk : s.take (k + n') = s.take k ++ (s.drop k).take n' := by
          have h2 := take_append_take (u := s.take k) (w := s.drop k) (n := n')
          rw [hlen, List.take_append_drop] at h2
          exact h2
        rw [hsk]
        refine Matches.grpPlus ?_ (all_take_of_le_takeWhile hkle) hM
        intro hnil
        have := congrArg List.length hnil
        rw [hlen] at this
        simp at this
        omega
    | opt c =>
      intro s caps n h
      cases s with
      | nil =>
        simp only [matchAtoms] at h
        obtain ⟨hle, hM⟩ := ih _ _ _ h
        simp at hle
        subst hle
        exact ⟨Nat.zero_le _, by simpa using Matches.optN (by simpa using hM)⟩
      | cons c2 s2 =>
        simp only [matchAtoms] at h
        by_cases hceq : (c2 == c) = true
        · rw [if_pos hceq] at h
          have hc2 : c2 = c := by simpa using hceq
          cases hm2 : matchAtoms rest s2 with
          | some r =>
            rw [hm2] at h
            obtain ⟨rfl, rfl⟩ := Prod.mk.injEq .. |>.mp (Option.some_inj.mp h)
            obtain ⟨hle, hM⟩ := ih _ _ _ hm2
            refine ⟨by simp; omega, ?_⟩
            have htk : (c2 :: s2).take (1 + r.2) = c2 :: s2.take r.2 := by
              rw [Nat.add_comm, List.take_succ_cons]
            rw [htk, hc2]
            exact Matches.optY hM
          | none =>
            rw [hm2] at h
            obtain ⟨hle, hM⟩ := ih _ _ _ h
            exact ⟨hle, Matches.optN hM⟩
        · rw [if_neg hceq] at h
          obtain ⟨hle, hM⟩ := ih _ _ _ h
          exact ⟨hle, Matches.optN hM⟩

theorem matchAtoms_complete {atoms : List Atom} {u : Str} {caps : List Str}
    (h : Matches atoms u caps) : ∀ v : Str, (matchAtoms atoms (u ++ v)).isSome := by
  induction h with
  | nil => intro v; simp [matchAtoms]
  | @lit cs rest t caps h ih =>
    intro v
    simp only [matchAtoms]
    have hpre : cs.isPrefixOf ((cs ++ t) ++ v) := by
      rw [List.isPrefixOf_iff_prefix]
      exact ⟨t ++ v, by simp⟩
    rw [if_pos hpre]
    have hdrop : ((cs ++ t) ++ v).drop cs.length = t ++ v := by
      rw [List.append_assoc, List.drop_left]
    rw [hdrop]
    obtain ⟨r, hr⟩ := Option.isSome_iff_exists.mp (ih v)
    rw [hr]
    simp
  | @star p rest u t caps hu h ih =>
    intro v
    simp only [matchAtoms]
    have htv : ((u ++ t) ++ v) = u ++ (t ++ v) := by simp
    refine firstSome?_isSome (a := u.length) ?_ ?_
    · rw [mem_descRange]
      refine le_takeWhile_of_all_take (by simp) ?_
      intro c hc
      rw [htv, List.take_left] at hc
      exact hu c hc
    · have hdrop : ((u ++ t) ++ v).drop u.length = t ++ v := by
        rw [htv, List.drop_left]
      rw [hdrop]
      obtain ⟨r, hr⟩ := Option.isSome_iff_exists.mp (ih v)
      rw [hr]
      simp
  | @grpStar p rest u t caps hu h ih =>
    intro v
    simp only [matchAtoms]
    have htv : ((u ++ t) ++ v) = u ++ (t ++ v) := by simp
    refine firstSome?_isSome (a := u.length) ?_ ?_
    · rw [mem_descRange]
      refine le_takeWhile_of_all_take (by simp) ?_
      intro c hc
      rw [htv, List.take_left] at hc
      exact hu c hc
    · have hdrop : ((u ++ t) ++ v).drop u.length = t ++ v := by
        rw [htv, List.drop_left]
      rw [hdrop]
      obtain ⟨r, hr⟩ := Option.isSome_iff_exists.mp (ih v)
      rw [hr]
      simp
  | @grpPlus p rest u t caps hune hu h ih =>
    intro v
    simp only [matchAtoms]
    have htv : ((u ++ t) ++ v) = u ++ (t ++ v) := by simp
    refine firstSome?_isSome (a := u.length) ?_ ?_
    · rw [mem_descRange]
      refine le_takeWhile_of_all_take (by simp) ?_
      intro c hc
      rw [htv, List.take_left] at hc
      exact hu c hc
    · have hne : (u.length == 0) = false := by
        simp only [beq_eq_false_iff_ne, ne_eq]
        intro h0
        exact hune (List.length_eq_zero.mp h0)
      rw [hne]
      simp only [Bool.false_eq_true, if_false]
      have hdrop : ((u ++ t) ++ v).drop u.length = t ++ v := by
        rw [htv, List.drop_left]
      rw [hdrop]
      obtain ⟨r, hr⟩ := Option.isSome_iff_exists.mp (ih v)
      rw [hr]
      simp
  | @optY c rest t caps h ih =>
    intro v
    simp only [List.cons_append, matchAtoms]
    rw [if_pos (by simp)]
    obtain ⟨r, hr⟩ := Option.isSome_iff_exists.mp (ih v)
    rw [hr]
    simp
  | @optN c rest t caps h ih =>
    intro v
    cases htv : t ++ v with
    | nil =>
      simp only [matchAtoms]
      have := ih v
      rw [htv] at this
      exact this
    | cons c2 s2 =>
      simp only [matchAtoms]
      by_cases hceq : (c2 == c) = true
      · rw [if_pos hceq]
        cases hm2 : matchAtoms rest s2 with
        | some r => simp
        | none =>
          have := ih v
          rw [htv] at this
          exact this
      · rw [if_neg hceq]
        have := ih v
        rw [htv] at this
        exact this

/-! ## The leftmost scan: characterization of `findFirst` -/

theorem findFirst_decomp {pat : List Atom} {s pre m rest : Str} {caps : List Str}
    (h : findFirst pat s = some (pre, caps, m, rest)) :
    s = pre ++ m ++ rest ∧ matchAtoms pat (m ++ rest) = some (caps, m.length) := by
  induction s generalizing pre with
  | nil =>
    simp only [findFirst] at h
    cases hm : matchAtoms pat [] with
    | none => rw [hm] at h; simp at h
    | some r =>
      rw [hm] at h
      obtain ⟨rfl, rfl, rfl, rfl⟩ :
          ([] : Str) = pre ∧ r.1 = caps ∧ ([] : Str) = m ∧ ([] : Str) = rest := by
        simpa using h
      have hr2 : r.2 = 0 := by
        have := (matchAtoms_sound _ _ _ _ (by rw [hm] : matchAtoms pat [] = some (r.1, r.2))).1
        simpa using this
      refine ⟨by simp, ?_⟩
      have hm' : matchAtoms pat [] = some (r.1, r.2) := hm
      simpa [hr2] using hm'
  | cons c s2 ih =>
    simp only [findFirst] at h
    cases hm : matchAtoms pat (c :: s2) with
    | some r =>
      rw [hm] at h
      obtain ⟨rfl, rfl, rfl, rfl⟩ :
          ([] : Str) = pre ∧ r.1 = caps ∧ (c :: s2).take r.2 = m ∧ (c :: s2).drop r.2 = rest := by
        simpa using h
      have hle := (matchAtoms_sound _ _ _ _ (by rw [hm] : matchAtoms pat (c :: s2) = some (r.1, r.2))).1
      have hlen : ((c :: s2).take r.2).length = r.2 := by
        rw [List.length_take]; omega
      refine ⟨by simp, ?_⟩
      rw [List.take_append_drop, hlen]
      exact hm
    | none =>
      rw [hm] at h
      cases hf : findFirst pat s2 with
      | none => rw [hf] at h; simp at h
      | some q =>
        obtain ⟨pre', caps', m', rest'⟩ := q
        rw [hf] at h
        obtain ⟨rfl, rfl, rfl, rfl⟩ :
            c :: pre' = pre ∧ caps' = caps ∧ m' = m ∧ rest' = rest := by
          simpa using h
        obtain ⟨hs2, hma⟩ := ih hf
        exact ⟨by rw [hs2]; simp, hma⟩

theorem findFirst_leftmost {pat : List Atom} {s pre m rest : Str} {caps : List Str}
    (h : findFirst pat s = some (pre, caps, m, rest)) :
    ∀ t₁ t₂ : Str, s = t₁ ++ t₂ → t₁.length < pre.length → matchAtoms pat t₂ = none := by
  induction s generalizing pre with
  | nil =>
    intro t₁ t₂ hs hlt
    simp only [findFirst] at h
    cases hm : matchAtoms pat [] with
    | none => rw [hm] at h; simp at h
    | some r =>
      rw [hm] at h
      have hp : pre = [] := by
        have h4 : ([] : Str) = pre ∧ r.1 = caps ∧ ([] : Str) = m ∧ ([] : Str) = rest := by
          simpa using h
        exact h4.1.symm
      rw [hp] at hlt
      simp at hlt
  | cons c s2 ih =>
    intro t₁ t₂ hs hlt
    simp only [findFirst] at h
    cases hm : matchAtoms pat (c :: s2) with
    | some r =>
      rw [hm] at h
      have hp : pre = [] := by
        have := (by simpa using h :
          ([] : Str) = pre ∧ r.1 = caps ∧ (c :: s2).take r.2 = m ∧ (c :: s2).drop r.2 = rest)
        exact this.1.symm
      rw [hp] at hlt
      simp at hlt
    | none =>
      rw [hm] at h
      cases hf : findFirst pat s2 with
      | none => rw [hf] at h; simp at h
      | some q =>
        obtain ⟨pre', caps', m', rest'⟩ := q
        rw [hf] at h
        obtain ⟨hpre, hcaps, hmm2, hrest2⟩ :
            c :: pre' = pre ∧ caps' = caps ∧ m' = m ∧ rest' = rest := by
          simpa using h
        subst hcaps
        subst hmm2
        subst hrest2
        have hp : pre = c :: pre' := hpre.symm
        cases t₁ with
        | nil =>
          have ht₂ : t₂ = c :: s2 := by simpa using hs.symm
          rw [ht₂]
          exact hm
        | cons d t₁' =>
          have hd : d = c ∧ s2 = t₁' ++ t₂ := by
            have : c :: s2 = d :: (t₁' ++ t₂) := by simpa using hs
            exact ⟨(List.cons.injEq .. |>.mp this.symm).1, (List.cons.injEq .. |>.mp this).2⟩
          refine ih hf t₁' t₂ hd.2 ?_
          rw [hp] at hlt
          simp at hlt
          omega

theorem findFirst_none_all {pat : List Atom} {s : Str} (h : findFirst pat s = none) :
    ∀ t₁ t₂ : Str, s = t₁ ++ t₂ → matchAtoms pat t₂ = none := by
  induction s with
  | nil =>
    intro t₁ t₂ hs
    obtain ⟨rfl, rfl⟩ : t₁ = [] ∧ t₂ = [] := by
      constructor <;> [exact (List.append_eq_nil.mp hs.symm).1;
        exact (List.append_eq_nil.mp hs.symm).2]
    simp only [findFirst] at h
    cases hm : matchAtoms pat [] with
    | none => rfl
    | some r => rw [hm] at h; simp at h
  | cons c s2 ih =>
    intro t₁ t₂ hs
    simp only [findFirst] at h
    cases hm : matchAtoms pat (c :: s2) with
    | some r => rw [hm] at h; simp at h
    | none =>
      rw [hm] at h
      cases hf : findFirst pat s2 with
      | some q => rw [hf] at h; obtain ⟨a, b, cc, d⟩ := q; simp at h
      | none =>
        cases t₁ with
        | nil =>
          have : t₂ = c :: s2 := by simpa using hs.symm
          rw [this]; exact hm
        | cons d t₁' =>
          have hd : s2 = t₁' ++ t₂ := by
            have : c :: s2 = d :: (t₁' ++ t₂) := by simpa using hs
            exact (List.cons.injEq .. |>.mp this).2
          exact ih hf t₁' t₂ hd

theorem occurs_of_subOf {pat : List Atom} {t' t : Str}
    (h : Occurs pat t') (hsub : SubOf t' t) : Occurs pat t := by
  obtain ⟨x, m, y, caps, rfl, hM⟩ := h
  obtain ⟨a, b, rfl⟩ := hsub
  exact ⟨a ++ x, m, y ++ b, caps, by simp, hM⟩

theorem not_occurs_of_findFirst_none {pat : List Atom} {s : Str}
    (h : findFirst pat s = none) : ¬ Occurs pat s := by
  rintro ⟨x, m, y, caps, rfl, hM⟩
  have hc := matchAtoms_complete hM y
  have hnone := findFirst_none_all h x (m ++ y) (by simp)
  rw [hnone] at hc
  simp at hc

theorem findFirst_none_of_not_occurs {pat : List Atom} {s : Str}
    (h : ¬ Occurs pat s) : findFirst pat s = none := by
  cases hf : findFirst pat s with
  | none => rfl
  | some q =>
    obtain ⟨pre, caps, m, rest⟩ := q
    obtain ⟨hs, hm⟩ := findFirst_decomp hf
    have hMp := (matchAtoms_sound _ _ _ _ hm).2
    rw [List.take_left] at hMp
    exact absurd ⟨pre, m, rest, caps, hs, hMp⟩ h

theorem not_occurs_iff_findFirst_none {pat : List Atom} {s : Str} :
    findFirst pat s = none ↔ ¬ Occurs pat s :=
  ⟨not_occurs_of_findFirst_none, findFirst_none_of_not_occurs⟩

/-! ## Unfolding `subn` -/

theorem subnF_succ_none {pat : List Atom} {tmpl : List TIt} {fuel : Nat} {s : Str}
    (h : findFirst pat s = none) : subnF pat tmpl (fuel + 1) s = (s, 0) := by
  simp only [subnF, h]

theorem subnF_succ_endEmpty {pat : List Atom} {tmpl : List TIt} {fuel : Nat}
    {s pre : Str} {caps : List Str}
    (h : findFirst pat s = some (pre, caps, [], [])) :
    subnF pat tmpl (fuel + 1) s = (pre ++ instT tmpl caps, 1) := by
  simp only [subnF, h]

theorem subnF_succ_emptyCons {pat : List Atom} {tmpl : List TIt} {fuel : Nat}
    {s pre rs : Str} {c : Char} {caps : List Str}
    (h : findFirst pat s = some (pre, caps, [], c :: rs)) :
    subnF pat tmpl (fuel + 1) s =
      (pre ++ instT tmpl caps ++ c :: (subnF pat tmpl fuel rs).1,
       (subnF pat tmpl fuel rs).2 + 1) := by
  simp only [subnF, h]

theorem subnF_succ_cons {pat : List Atom} {tmpl : List TIt} {fuel : Nat}
    {s pre mtl rest : Str} {mc : Char} {caps : List Str}
    (h : findFirst pat s = some (pre, caps, mc :: mtl, rest)) :
    subnF pat tmpl (fuel + 1) s =
      (pre ++ instT tmpl caps ++ (subnF pat tmpl fuel rest).1,
       (subnF pat tmpl fuel rest).2 + 1) := by
  simp only [subnF, h]

theorem subnF_congr {pat : List Atom} {tmpl : List TIt} :
    ∀ (f₁ : Nat) {f₂ : Nat} {s : Str}, s.length < f₁ → s.length < f₂ →
    subnF pat tmpl f₁ s = subnF pat tmpl f₂ s := by
  intro f₁
  induction f₁ with
  | zero => intro f₂ s h₁ _; omega
  | succ f ihf =>
    intro f₂ s h₁ h₂
    cases f₂ with
    | zero => omega
    | succ f₂' =>
      cases hf : findFirst pat s with
      | none => rw [subnF_succ_none hf, subnF_succ_none hf]
      | some q =>
        obtain ⟨pre, caps, m, rest⟩ := q
        obtain ⟨hs, _⟩ := findFirst_decomp hf
        have hslen := congrArg List.length hs
        simp only [List.length_append] at hslen
        cases m with
        | nil =>
          cases rest with
          | nil => rw [subnF_succ_endEmpty hf, subnF_succ_endEmpty hf]
          | cons c rs =>
            have hl1 : rs.length < f := by simp at hslen; omega
            have hl2 : rs.length < f₂' := by simp at hslen; omega
            rw [subnF_succ_emptyCons hf, subnF_succ_emptyCons hf, ihf hl1 hl2]
        | cons mc mtl =>
          have hl1 : rest.length < f := by simp at hslen; omega
          have hl2 : rest.length < f₂' := by simp at hslen; omega
          rw [subnF_succ_cons hf, subnF_succ_cons hf, ihf hl1 hl2]

theorem subn_none {pat : List Atom} {tmpl : List TIt} {s : Str}
    (h : findFirst pat s = none) : subn pat tmpl s = (s, 0) := by
  rw [subn]
  exact subnF_succ_none h

theorem subn_some {pat : List Atom} {tmpl : List TIt} {s pre m rest : Str} {caps : List Str}
    (h : findFirst pat s = some (pre, caps, m, rest)) (hm : m ≠ []) :
    subn pat tmpl s =
      (pre ++ instT tmpl caps ++ (subn pat tmpl rest).1, (subn pat tmpl rest).2 + 1) := by
  obtain ⟨hs, _⟩ := findFirst_decomp h
  obtain ⟨mc, mtl, rfl⟩ : ∃ mc mtl, m = mc :: mtl := by
    cases m with
    | nil => exact absurd rfl hm
    | cons a l => exact ⟨a, l, rfl⟩
  have hslen := congrArg List.length hs
  simp only [List.length_append, List.length_cons] at hslen
  have hc : subnF pat tmpl s.length rest = subnF pat tmpl (rest.length + 1) rest :=
    subnF_congr s.length (by omega) (by omega)
  rw [subn, subnF_succ_cons h, subn, hc]

theorem subn_self_of_not_occurs {pat : List Atom} {tmpl : List TIt} {s : Str}
    (h : ¬ Occurs pat s) : subn pat tmpl s = (s, 0) :=
  subn_none (findFirst_none_of_not_occurs h)

/-! ## Shape inversions for the concrete patterns -/

theorem matchesR2_shape {m : Str} {caps : List Str}
    (h : Matches patAtomsR2 m caps) : m = sConn ∧ caps = [] := by
  have h' : Matches [Atom.lit sConn] m caps := h
  cases h' with
  | lit h2 =>
    cases h2 with
    | nil => exact ⟨by simp, rfl⟩

theorem matchesA_shape {m : Str} {caps : List Str} (h : Matches patAtomsA m caps) :
    ∃ w1 w2 w3 w4 op w5 : Str,
      m = sA1 ++ (w1 ++ (sA2 ++ (w2 ++ (sA3 ++ (w3 ++ (sA4 ++ (w4 ++
        ("\x7d".data ++ (op ++ (";".data ++ (w5 ++ sA6)))))))))))
      ∧ (∀ c ∈ w1, wsP c = true) ∧ (∀ c ∈ w2, wsP c = true)
      ∧ (∀ c ∈ w3, wsP c = true) ∧ (∀ c ∈ w4, wsP c = true)
      ∧ (∀ c ∈ w5, wsP c = true) ∧ (op = [] ∨ op = [')']) := by
  have h' : Matches [Atom.lit sA1, Atom.star wsP, Atom.lit sA2, Atom.star wsP,
      Atom.lit sA3, Atom.star wsP, Atom.lit sA4, Atom.star wsP,
      Atom.lit "\x7d".data, Atom.opt ')', Atom.lit ";".data, Atom.star wsP,
      Atom.lit sA6] m caps := h
  cases h' with
  | lit h1 =>
  rename_i t1
  cases h1 with
  | star hw1 h2 =>
  rename_i w1 t2
  cases h2 with
  | lit h3 =>
  rename_i t3
  cases h3 with
  | star hw2 h4 =>
  rename_i w2 t4
  cases h4 with
  | lit h5 =>
  rename_i t5
  cases h5 with
  | star hw3 h6 =>
  rename_i w3 t6
  cases h6 with
  | lit h7 =>
  rename_i t7
  cases h7 with
  | star hw4 h8 =>
  rename_i w4 t8
  cases h8 with
  | lit h9 =>
  rename_i t9
  cases h9 with
  | optY h10 =>
    rename_i t10
    cases h10 with
    | lit h11 =>
    rename_i t11
    cases h11 with
    | star hw5 h12 =>
    rename_i w5 t12
    cases h12 with
    | lit h13 =>
    rename_i t13
    cases h13 with
    | nil =>
      refine ⟨w1, w2, w3, w4, [')'], w5, ?_, hw1, hw2, hw3, hw4, hw5, Or.inr rfl⟩
      simp
  | optN h10 =>
    cases h10 with
    | lit h11 =>
    rename_i t11
    cases h11 with
    | star hw5 h12 =>
    rename_i w5 t12
    cases h12 with
    | lit h13 =>
    rename_i t13
    cases h13 with
    | nil =>
      refine ⟨w1, w2, w3, w4, [], w5, ?_, hw1, hw2, hw3, hw4, hw5, Or.inl rfl⟩
      simp

theorem matchesR1_shape {m : Str} {caps : List Str} (h : Matches patAtomsR1 m caps) :
    ∃ g1 gap g2 : Str,
      m = sPub ++ (g1 ++ ("(".data ++ (gap ++ (sDb ++ g2))))
      ∧ g1 ≠ [] ∧ (∀ c ∈ g1, wordP c = true) ∧ (∀ c ∈ gap, nonRP c = true)
      ∧ (∀ c ∈ g2, nonRP c = true) ∧ caps = [g1, g2] := by
  have h' : Matches [Atom.lit sPub, Atom.grpPlus wordP, Atom.lit "(".data,
      Atom.star nonRP, Atom.lit sDb, Atom.grpStar nonRP] m caps := h
  cases h' with
  | lit h1 =>
  cases h1 with
  | grpPlus hne hw h2 =>
  rename_i g1 t2 caps2
  cases h2 with
  | lit h3 =>
  cases h3 with
  | star hgap h4 =>
  rename_i gap t4
  cases h4 with
  | lit h5 =>
  cases h5 with
  | grpStar hg2 h6 =>
  rename_i g2 t6 caps6
  cases h6 with
  | nil =>
    refine ⟨g1, gap, g2, ?_, hne, hw, hgap, hg2, rfl⟩
    simp

theorem matchesR1core_shape {m : Str} {caps : List Str}
    (h : Matches patAtomsR1core m caps) :
    ∃ g1 gap : Str,
      m = sPub ++ (g1 ++ ("(".data ++ (gap ++ sDb)))
      ∧ g1 ≠ [] ∧ (∀ c ∈ g1, wordP c = true) ∧ (∀ c ∈ gap, nonRP c = true)
      ∧ caps = [g1] := by
  have h' : Matches [Atom.lit sPub, Atom.grpPlus wordP, Atom.lit "(".data,
      Atom.star nonRP, Atom.lit sDb] m caps := h
  cases h' with
  | lit h1 =>
  cases h1 with
  | grpPlus hne hw h2 =>
  rename_i g1 t2 caps2
  cases h2 with
  | lit h3 =>
  cases h3 with
  | star hgap h4 =>
  rename_i gap t4
  cases h4 with
  | lit h5 =>
  cases h5 with
  | nil =>
    refine ⟨g1, gap, ?_, hne, hw, hgap, rfl⟩
    simp

theorem matchesR1core_of_parts {g1 gap : Str} (hne : g1 ≠ [])
    (hw : ∀ c ∈ g1, wordP c = true) (hgap : ∀ c ∈ gap, nonRP c = true) :
    Matches patAtomsR1core (sPub ++ (g1 ++ ("(".data ++ (gap ++ sDb)))) [g1] := by
  have hdb : Matches [Atom.lit sDb] sDb [] := by
    have h0 := @Matches.lit sDb [] [] [] Matches.nil
    rwa [List.append_nil] at h0
  exact Matches.lit (Matches.grpPlus hne hw (Matches.lit (Matches.star hgap hdb)))

theorem matchesR1_of_parts {g1 gap g2 : Str} (hne : g1 ≠ [])
    (hw : ∀ c ∈ g1, wordP c = true) (hgap : ∀ c ∈ gap, nonRP c = true)
    (hg2 : ∀ c ∈ g2, nonRP c = true) :
    Matches patAtomsR1 (sPub ++ (g1 ++ ("(".data ++ (gap ++ (sDb ++ g2))))) [g1, g2] := by
  have hg : Matches [Atom.grpStar nonRP] g2 [g2] := by
    have h0 := Matches.grpStar (p := nonRP) hg2 Matches.nil
    rwa [List.append_nil] at h0
  exact Matches.lit (Matches.grpPlus hne hw (Matches.lit (Matches.star hgap
    (Matches.lit hg))))

theorem occurs_R1_iff_core {t : Str} :
    Occurs patAtomsR1 t ↔ Occurs patAtomsR1core t := by
  constructor
  · rintro ⟨x, m, y, caps, rfl, hM⟩
    obtain ⟨g1, gap, g2, hm, hne, hw, hgap, hg2, -⟩ := matchesR1_shape hM
    refine ⟨x, sPub ++ (g1 ++ ("(".data ++ (gap ++ sDb))), g2 ++ y, [g1], ?_,
      matchesR1core_of_parts hne hw hgap⟩
    rw [hm]
    simp
  · rintro ⟨x, m, y, caps, rfl, hM⟩
    obtain ⟨g1, gap, hm, hne, hw, hgap, -⟩ := matchesR1core_shape hM
    refine ⟨x, sPub ++ (g1 ++ ("(".data ++ (gap ++ (sDb ++ [])))), y, [g1, []], ?_,
      matchesR1_of_parts hne hw hgap (by simp)⟩
    rw [hm]
    simp

/-! ## Greedy choice properties of the matcher -/

theorem matchAtoms_lit_step {cs : Str} {ar : List Atom} {s : Str}
    {caps : List Str} {n : Nat}
    (h : matchAtoms (Atom.lit cs :: ar) s = some (caps, n)) :
    ∃ v n', s = cs ++ v ∧ matchAtoms ar v = some (caps, n') ∧ n = cs.length + n' := by
  simp only [matchAtoms] at h
  split at h
  case isTrue hpre =>
    rw [Option.map_eq_some'] at h
    obtain ⟨r, hm, heq⟩ := h
    obtain ⟨hcaps, hn⟩ := Prod.mk.injEq .. |>.mp heq
    obtain ⟨w, rfl⟩ := List.isPrefixOf_iff_prefix.mp hpre
    rw [List.drop_left] at hm
    refine ⟨w, r.2, rfl, ?_, hn.symm⟩
    rw [← hcaps]
    exact hm
  case isFalse => simp at h

theorem matchAtoms_star_split {p : Char → Bool} {ar : List Atom} {s : Str}
    {caps : List Str} {n : Nat}
    (h : matchAtoms (Atom.star p :: ar) s = some (caps, n)) :
    ∃ l₁ k l₂ n', descRange ((s.takeWhile p).length) = l₁ ++ k :: l₂ ∧
      matchAtoms ar (s.drop k) = some (caps, n') ∧ n = k + n' ∧
      ∀ x ∈ l₁, matchAtoms ar (s.drop x) = none := by
  simp only [matchAtoms] at h
  obtain ⟨l₁, k, l₂, hsplit, hk, hnone⟩ := firstSome?_split h
  rw [Option.map_eq_some'] at hk
  obtain ⟨r, hm, heq⟩ := hk
  obtain ⟨hcaps, hn⟩ := Prod.mk.injEq .. |>.mp heq
  refine ⟨l₁, k, l₂, r.2, hsplit, ?_, hn.symm, ?_⟩
  · rw [← hcaps]; exact hm
  · intro x hx
    have := hnone x hx
    rw [Option.map_eq_none'] at this
    exact this

theorem matchAtoms_grpPlus_step {p : Char → Bool} {ar : List Atom} {s : Str}
    {caps : List Str} {n : Nat}
    (h : matchAtoms (Atom.grpPlus p :: ar) s = some (caps, n)) :
    ∃ k caps' n', k ≠ 0 ∧ k ≤ (s.takeWhile p).length ∧
      matchAtoms ar (s.drop k) = some (caps', n') ∧
      caps = s.take k :: caps' ∧ n = k + n' := by
  simp only [matchAtoms] at h
  obtain ⟨l₁, k, l₂, hsplit, hk, _⟩ := firstSome?_split h
  split at hk
  case isTrue => simp at hk
  case isFalse hk0 =>
    rw [Option.map_eq_some'] at hk
    obtain ⟨r, hm, heq⟩ := hk
    obtain ⟨hcaps, hn⟩ := Prod.mk.injEq .. |>.mp heq
    have hkmem : k ∈ descRange ((s.takeWhile p).length) := by rw [hsplit]; simp
    exact ⟨k, r.1, r.2, by simpa using hk0, mem_descRange.mp hkmem, hm,
      hcaps.symm, hn.symm⟩

theorem descRange_head (n : Nat) : ∃ tl, descRange n = n :: tl := by
  cases n with
  | zero => exact ⟨[], rfl⟩
  | succ L => exact ⟨descRange L, rfl⟩

theorem matchAtoms_grpStar_final (p : Char → Bool) (u : Str) :
    matchAtoms [Atom.grpStar p] u =
      some ([u.takeWhile p], (u.takeWhile p).length) := by
  obtain ⟨tl, htl⟩ := descRange_head ((u.takeWhile p).length)
  have htake : u.take ((u.takeWhile p).length) = u.takeWhile p := by
    obtain ⟨w, hw⟩ := List.takeWhile_prefix (p := p) (l := u)
    have h2 : ((u.takeWhile p) ++ w).take ((u.takeWhile p).length) = u.takeWhile p :=
      List.take_left _ _
    rw [hw] at h2
    exact h2
  simp only [matchAtoms]
  rw [htl]
  simp [firstSome?, matchAtoms, htake]

theorem drop_takeWhile_length (p : Char → Bool) (v : Str) :
    v.drop ((v.takeWhile p).length) = v.dropWhile p := by
  have h2 : ((v.takeWhile p) ++ (v.dropWhile p)).drop ((v.takeWhile p).length) =
      v.dropWhile p := List.drop_left _ _
  rw [List.takeWhile_append_dropWhile] at h2
  exact h2

theorem sDb_nonR : ∀ c ∈ sDb, nonRP c = true := by decide

theorem dropWhile_head_shape (p : Char → Bool) (v : Str) :
    v.dropWhile p = [] ∨ ∃ c tw, v.dropWhile p = c :: tw ∧ p c = false := by
  induction v with
  | nil => exact Or.inl rfl
  | cons a l ih =>
    by_cases hpa : p a = true
    · rw [List.dropWhile_cons_of_pos hpa]
      exact ih
    · rw [List.dropWhile_cons_of_neg hpa]
      exact Or.inr ⟨a, l, rfl, by simpa using hpa⟩

theorem matches_dbTail_nil : Matches [Atom.lit sDb, Atom.grpStar nonRP] sDb [[]] := by
  have h0 := @Matches.lit sDb [Atom.grpStar nonRP] [] [[]]
    (Matches.grpStar (p := nonRP) (u := ([] : Str)) (by simp) Matches.nil)
  simpa using h0

theorem matchAtomsR1_tail {s : Str} {caps : List Str} {n : Nat}
    (h : matchAtoms [Atom.star nonRP, Atom.lit sDb, Atom.grpStar nonRP] s =
      some (caps, n)) :
    ∃ g2 : Str, caps = [g2] ∧ (∀ c ∈ g2, nonRP c = true) ∧ ¬ SubOf sDb g2 ∧
      (s.drop n = [] ∨ (s.drop n).head? = some ')') := by
  obtain ⟨l₁, k₀, l₂, n₂, hsplit, hm2, hn, hnone⟩ := matchAtoms_star_split h
  obtain ⟨v, n₃, hsk, hm3, hn₂⟩ := matchAtoms_lit_step hm2
  rw [matchAtoms_grpStar_final] at hm3
  obtain ⟨hcapsEq, hn₃⟩ := Prod.mk.injEq .. |>.mp (Option.some_inj.mp hm3)
  have hk₀le : k₀ ≤ (s.takeWhile nonRP).length := by
    have : k₀ ∈ descRange ((s.takeWhile nonRP).length) := by rw [hsplit]; simp
    exact mem_descRange.mp this
  have hk₀s : k₀ ≤ s.length := hk₀le.trans (length_takeWhile_le' _ _)
  have hg2chars : ∀ c ∈ v.takeWhile nonRP, nonRP c = true :=
    fun c hc => List.mem_takeWhile_imp hc
  have htklen : (s.take k₀).length = k₀ := by rw [List.length_take]; omega
  have hsdecomp : s = s.take k₀ ++ (sDb ++ v) := by
    rw [← hsk, List.take_append_drop]
  -- the remainder after the whole tail match
  have hdropn : s.drop n = v.dropWhile nonRP := by
    rw [hn, ← List.drop_drop, hsk, hn₂, ← List.drop_drop, List.drop_left, ← hn₃,
      drop_takeWhile_length]
  refine ⟨v.takeWhile nonRP, hcapsEq.symm, hg2chars, ?_, ?_⟩
  · rintro ⟨α, β, hsub⟩
    have hv0 : v = v.takeWhile nonRP ++ v.dropWhile nonRP :=
      (List.takeWhile_append_dropWhile ..).symm
    have hv : v = α ++ (sDb ++ (β ++ v.dropWhile nonRP)) := by
      conv_lhs => rw [hv0]
      rw [hsub]
      simp
    have hαchars : ∀ c ∈ α, nonRP c = true := by
      intro c hc
      exact hg2chars c (by rw [hsub]; simp [hc])
    have hdbpos : 0 < sDb.length := by decide
    set k' := k₀ + (sDb.length + α.length) with hk'
    have hdropk' : s.drop k' = sDb ++ (β ++ v.dropWhile nonRP) := by
      calc s.drop k'
          = (s.drop k₀).drop (sDb.length + α.length) := by
            rw [hk', ← List.drop_drop]
        _ = (sDb ++ v).drop (sDb.length + α.length) := by rw [hsk]
        _ = v.drop α.length := by rw [← List.drop_drop, List.drop_left]
        _ = sDb ++ (β ++ v.dropWhile nonRP) := by
            conv_lhs => rw [hv]
            exact List.drop_left _ _
    have h1 : s = s.take k₀ ++ (sDb ++ (α ++ (sDb ++ (β ++ v.dropWhile nonRP)))) := by
      conv_lhs => rw [hsdecomp, hv]
    have htake' : s.take k' = s.take k₀ ++ (sDb ++ α) := by
      calc s.take k'
          = (s.take k₀ ++ (sDb ++ (α ++ (sDb ++ (β ++ v.dropWhile nonRP))))).take
              (k₀ + (sDb.length + α.length)) := by rw [← h1, hk']
        _ = s.take k₀ ++ (sDb ++ (α ++ (sDb ++ (β ++ v.dropWhile nonRP)))).take
              (sDb.length + α.length) := by
              have h2 := take_append_take (u := s.take k₀)
                (w := sDb ++ (α ++ (sDb ++ (β ++ v.dropWhile nonRP))))
                (n := sDb.length + α.length)
              rw [htklen] at h2
              exact h2
        _ = s.take k₀ ++ (sDb ++ (α ++ (sDb ++ (β ++ v.dropWhile nonRP))).take α.length) := by
              rw [take_append_take]
        _ = s.take k₀ ++ (sDb ++ α) := by rw [List.take_left]
    have hk's : k' ≤ s.length := by
      have hl1 := congrArg List.length h1
      simp only [List.length_append] at hl1
      omega
    have hall' : ∀ c ∈ s.take k', nonRP c = true := by
      intro c hc
      rw [htake'] at hc
      simp only [List.mem_append] at hc
      rcases hc with hc | hc | hc
      · exact all_take_of_le_takeWhile hk₀le c hc
      · exact sDb_nonR c hc
      · exact hαchars c hc
    have hk'le : k' ≤ (s.takeWhile nonRP).length :=
      le_takeWhile_of_all_take hk's hall'
    have hk'gt : k₀ < k' := by omega
    have hk'mem : k' ∈ descRange ((s.takeWhile nonRP).length) :=
      mem_descRange.mpr hk'le
    have hk'l₁ : k' ∈ l₁ := by
      rw [hsplit] at hk'mem
      rcases List.mem_append.mp hk'mem with hmem | hmem
      · exact hmem
      · rcases List.mem_cons.mp hmem with heq | hmem
        · omega
        · have hp := descRange_pairwise ((s.takeWhile nonRP).length)
          rw [hsplit] at hp
          have hp2 := (List.pairwise_append.mp hp).2.1
          rw [List.pairwise_cons] at hp2
          have := hp2.1 k' hmem
          omega
    have hsomek' : (matchAtoms [Atom.lit sDb, Atom.grpStar nonRP] (s.drop k')).isSome := by
      have hcomp := matchAtoms_complete matches_dbTail_nil (β ++ v.dropWhile nonRP)
      rw [hdropk']
      exact hcomp
    rw [hnone k' hk'l₁] at hsomek'
    simp at hsomek'
  · rw [hdropn]
    rcases dropWhile_head_shape nonRP v with hdw | ⟨c, tw, hdw, hpc⟩
    · exact Or.inl hdw
    · right
      rw [hdw]
      have hc : c = ')' := by
        have hb : (c == ')') = true := by simpa [nonRP] using hpc
        simpa using hb
      rw [hc]
      rfl

theorem matchAtomsR1_props {s : Str} {caps : List Str} {n : Nat}
    (h : matchAtoms patAtomsR1 s = some (caps, n)) :
    ∃ g1 g2 : Str, caps = [g1, g2] ∧ ¬ SubOf sDb g2 ∧
      (s.drop n = [] ∨ (s.drop n).head? = some ')') := by
  have h' : matchAtoms (Atom.lit sPub :: [Atom.grpPlus wordP, Atom.lit "(".data,
      Atom.star nonRP, Atom.lit sDb, Atom.grpStar nonRP]) s = some (caps, n) := h
  obtain ⟨v1, n1, hs1, hm1, hne1⟩ := matchAtoms_lit_step h'
  obtain ⟨k, caps', n2, hk0, hkle, hm2, hcaps1, hnn⟩ := matchAtoms_grpPlus_step hm1
  obtain ⟨v2, n3, hs2, hm3, hn2⟩ := matchAtoms_lit_step hm2
  obtain ⟨g2, hcaps2, hg2c, hsub, hrest⟩ := matchAtomsR1_tail hm3
  refine ⟨v1.take k, g2, ?_, hsub, ?_⟩
  · rw [hcaps1, hcaps2]
  · have hdrop : s.drop n = v2.drop n3 := by
      calc s.drop n
          = (sPub ++ v1).drop (sPub.length + n1) := by rw [← hs1, ← hne1]
        _ = v1.drop n1 := by rw [← List.drop_drop, List.drop_left]
        _ = (v1.drop k).drop n2 := by rw [List.drop_drop, ← hnn]
        _ = ("(".data ++ v2).drop (("(".data).length + n3) := by rw [← hs2, ← hn2]
        _ = v2.drop n3 := by rw [← List.drop_drop, List.drop_left]
    rw [hdrop]
    exact hrest

theorem findFirstR1_props {s pre m rest : Str} {caps : List Str}
    (h : findFirst patAtomsR1 s = some (pre, caps, m, rest)) :
    ∃ g1 g2 : Str, caps = [g1, g2] ∧ ¬ SubOf sDb g2 ∧
      (rest = [] ∨ rest.head? = some ')') := by
  obtain ⟨hs, hm⟩ := findFirst_decomp h
  obtain ⟨g1, g2, hcaps, hsub, hrest⟩ := matchAtomsR1_props hm
  rw [List.drop_left] at hrest
  exact ⟨g1, g2, hcaps, hsub, hrest⟩

/-! ## The first `fix_commands.py` replacement never contains the key literal -/

theorem instR1_eval (g1 g2 : Str) :
    instT tmplR1 [g1, g2] = sPub ++ (g1 ++ (sHandle ++ g2)) := by
  simp [instT, tmplR1]

theorem sDb_not_sub_sPub : ¬ SubOf sDb sPub := by
  rw [subOf_iff]
  decide

theorem sDb_not_sub_sHandle : ¬ SubOf sDb sHandle := by
  rw [subOf_iff]
  decide

theorem noMeetB_sPub_sDb : noMeetB sPub sDb = true := by decide

theorem noMeetB_sHandle_sDb : noMeetB sHandle sDb = true := by decide

theorem colon_mem_sDb : ':' ∈ sDb := by decide

theorem wordP_colon : wordP ':' = false := by decide

theorem lparen_not_mem_sDb : '(' ∉ sDb := by decide

theorem sHandle_cons : sHandle = '(' :: "\n    app: AppHandle,".data := by decide

theorem sDb_not_sub_inst {g1 g2 : Str} (hg1w : ∀ c ∈ g1, wordP c = true)
    (hg2 : ¬ SubOf sDb g2) : ¬ SubOf sDb (sPub ++ (g1 ++ (sHandle ++ g2))) := by
  rintro ⟨x, y, hocc⟩
  have hocc' : x ++ sDb ++ y = sPub ++ g1 ++ (sHandle ++ g2) := by
    rw [← hocc]; simp
  rcases occSplit hocc' with hin | hin | hin | hin | hin | hin
  · exact sDb_not_sub_sPub hin
  · exact absurd (hg1w ':' (mem_of_subOf hin colon_mem_sDb))
      (by rw [wordP_colon]; simp)
  · obtain ⟨x', y', hxy⟩ := hin
    rcases splitPair hxy.symm with ⟨y₁, hh, _⟩ | ⟨x₁, hg, _⟩ |
      ⟨d₁, d₂, hd, hd₁, hd₂, hh, hg⟩
    · exact sDb_not_sub_sHandle ⟨x', y₁, hh⟩
    · exact hg2 ⟨x₁, y', hg⟩
    · refine noMeet noMeetB_sHandle_sDb d₁ hd₁ ⟨x', hh⟩ ⟨d₂, hd⟩
  · obtain ⟨d₁, d₂, x₁, y₁, hd, hd₁, hd₂, hp, hg⟩ := hin
    exact noMeet noMeetB_sPub_sDb d₁ hd₁ ⟨x₁, hp⟩ ⟨d₂, hd⟩
  · obtain ⟨d₁, d₂, x₁, y₁, hd, hd₁, hd₂, hg, hsg⟩ := hin
    obtain ⟨c, d₂', rfl⟩ : ∃ c d₂', d₂ = c :: d₂' := by
      cases d₂ with
      | nil => exact absurd rfl hd₂
      | cons a l => exact ⟨a, l, rfl⟩
    have hc : c = '(' := by
      rw [sHandle_cons] at hsg
      simp only [List.cons_append] at hsg
      exact ((List.cons.injEq .. |>.mp hsg).1).symm
    have : c ∈ sDb := by rw [hd]; simp
    rw [hc] at this
    exact lparen_not_mem_sDb this
  · obtain ⟨d₁, d₃, x₁, y₁, hd, hd₁, hd₃, hp, hsg⟩ := hin
    refine noMeet noMeetB_sPub_sDb d₁ hd₁ ⟨x₁, hp⟩ ⟨g1 ++ d₃, by rw [hd]; simp⟩

theorem coreR1_no_rparen {m : Str} {caps : List Str}
    (h : Matches patAtomsR1core m caps) : ')' ∉ m := by
  obtain ⟨g1, gap, hm, _, hw, hgap, -⟩ := matchesR1core_shape h
  rw [hm]
  intro hmem
  simp only [List.mem_append] at hmem
  rcases hmem with hmem | hmem | hmem | hmem | hmem
  · exact absurd hmem (by decide)
  · have hcw := hw ')' hmem
    rw [show wordP ')' = false from by decide] at hcw
    exact absurd hcw (by simp)
  · exact absurd hmem (by decide)
  · have hcg := hgap ')' hmem
    rw [show nonRP ')' = false from by decide] at hcg
    exact absurd hcg (by simp)
  · exact absurd hmem (by decide)

/-! ## No match of rule 1 survives its own substitution -/

theorem matchesR1_ne_nil {m : Str} {caps : List Str}
    (h : Matches patAtomsR1 m caps) : m ≠ [] := by
  obtain ⟨g1, gap, g2, hm, -⟩ := matchesR1_shape h
  rw [hm]
  intro h0
  have hl := congrArg List.length h0
  simp only [List.length_append, List.length_nil] at hl
  have : sPub.length = 13 := by decide
  omega

theorem not_occurs_pre {pat : List Atom} {s pre m rest : Str} {caps : List Str}
    (hf : findFirst pat s = some (pre, caps, m, rest))
    (hne : ∀ (m' : Str) (caps' : List Str), Matches pat m' caps' → m' ≠ []) :
    ¬ Occurs pat pre := by
  rintro ⟨x₁, mf, y₁, capsf, hpre, hMf⟩
  have hc := matchAtoms_complete hMf (y₁ ++ m ++ rest)
  have hs : s = x₁ ++ (mf ++ (y₁ ++ m ++ rest)) := by
    rw [(findFirst_decomp hf).1, hpre]
    simp
  have hmfne : mf ≠ [] := hne mf capsf hMf
  have hmfpos : 0 < mf.length := by
    cases mf with
    | nil => exact absurd rfl hmfne
    | cons a l => simp
  have hlen : x₁.length < pre.length := by
    rw [hpre]
    simp only [List.length_append]
    omega
  have := findFirst_leftmost hf x₁ (mf ++ (y₁ ++ m ++ rest)) hs hlen
  rw [this] at hc
  simp at hc

theorem split_tail {A B m₁ m₂ : Str} (h : m₁ ++ m₂ = A ++ B) :
    (m₂.length ≤ B.length → SufOf m₂ B) ∧ (B.length < m₂.length → SubOf B m₂) := by
  rcases List.append_eq_append_iff.mp h with ⟨a', hA, hm₂⟩ | ⟨c', hm₁, hB⟩
  · constructor
    · intro hle
      have hl := congrArg List.length hm₂
      simp only [List.length_append] at hl
      have ha0 : a' = [] := by
        have : a'.length = 0 := by omega
        exact List.length_eq_zero.mp this
      rw [ha0] at hm₂
      simp only [List.nil_append] at hm₂
      exact ⟨[], by rw [hm₂]; simp⟩
    · intro _
      exact ⟨a', [], by rw [hm₂]; simp⟩
  · constructor
    · intro _
      exact ⟨c', hB⟩
    · intro hlt
      have hl := congrArg List.length hB
      simp only [List.length_append] at hl
      omega

theorem split_head {A B m₁ m₂ : Str} (h : m₁ ++ m₂ = A ++ B)
    (hle : m₁.length ≤ A.length) : PreOf m₁ A := by
  rcases List.append_eq_append_iff.mp h with ⟨a', hA, _⟩ | ⟨c', hm₁, hB⟩
  · exact ⟨a', hA⟩
  · have hl := congrArg List.length hm₁
    simp only [List.length_append] at hl
    have hc0 : c' = [] := by
      have : c'.length = 0 := by omega
      exact List.length_eq_zero.mp this
    rw [hc0] at hm₁
    simp only [List.append_nil] at hm₁
    exact ⟨[], by rw [← hm₁]; simp⟩

theorem findFirst_nil_R1 : findFirst patAtomsR1 [] = none := by decide

theorem u_not_mem_sDb : 'u' ∉ sDb := by decide

theorem sDb_getLast : sDb.getLast? = some '>' := by decide

theorem sPub_cons : sPub = 'p' :: 'u' :: "b async fn ".data := by decide

theorem findFirstR1_matched_shape {s pre m rest : Str} {caps : List Str}
    (hf : findFirst patAtomsR1 s = some (pre, caps, m, rest)) :
    Matches patAtomsR1 m caps := by
  obtain ⟨hs, hma⟩ := findFirst_decomp hf
  have hM := (matchAtoms_sound _ _ _ _ hma).2
  rw [List.take_left] at hM
  exact hM

theorem subnR1_headed {t : Str} (h : t = [] ∨ t.head? = some ')') :
    (subn patAtomsR1 tmplR1 t).1 = [] ∨
      ((subn patAtomsR1 tmplR1 t).1).head? = some ')' := by
  rcases h with rfl | hh
  · rw [subn_none findFirst_nil_R1]
    exact Or.inl rfl
  · obtain ⟨c, ts, rfl⟩ : ∃ c ts, t = c :: ts := by
      cases t with
      | nil => simp at hh
      | cons a l => exact ⟨a, l, rfl⟩
    have hc : c = ')' := by simpa using hh
    cases hf : findFirst patAtomsR1 (c :: ts) with
    | none =>
      rw [subn_none hf]
      exact Or.inr hh
    | some q =>
      obtain ⟨pre, caps, m, rest⟩ := q
      have hM := findFirstR1_matched_shape hf
      have hmne : m ≠ [] := matchesR1_ne_nil hM
      rw [subn_some hf hmne]
      obtain ⟨hs, _⟩ := findFirst_decomp hf
      cases hpre : pre with
      | nil =>
        exfalso
        rw [hpre] at hs
        simp only [List.nil_append] at hs
        obtain ⟨g1, gap, g2, hm, -⟩ := matchesR1_shape hM
        rw [hm, sPub_cons] at hs
        simp only [List.cons_append] at hs
        have : c = 'p' := (List.cons.injEq .. |>.mp hs).1
        rw [hc] at this
        exact absurd this (by decide)
      | cons p ps =>
        right
        rw [hpre] at hs
        simp only [List.cons_append] at hs
        have hp : c = p := (List.cons.injEq .. |>.mp hs).1
        simp only [List.cons_append, List.head?_cons]
        rw [← hp, hc]

theorem cleanR1_aux : ∀ (N : Nat) (s : Str), s.length ≤ N →
    ¬ Occurs patAtomsR1 ((subn patAtomsR1 tmplR1 s).1) := by
  intro N
  induction N with
  | zero =>
    intro s hlen
    have hs0 : s = [] := List.length_eq_zero.mp (by omega)
    rw [hs0, subn_none findFirst_nil_R1]
    exact not_occurs_of_findFirst_none findFirst_nil_R1
  | succ N ihN =>
    intro s hlen
    cases hf : findFirst patAtomsR1 s with
    | none =>
      rw [subn_none hf]
      exact not_occurs_of_findFirst_none hf
    | some q =>
      obtain ⟨pre, caps, m, rest⟩ := q
      have hM := findFirstR1_matched_shape hf
      have hmne : m ≠ [] := matchesR1_ne_nil hM
      rw [subn_some hf hmne]
      show ¬ Occurs patAtomsR1
        (pre ++ instT tmplR1 caps ++ (subn patAtomsR1 tmplR1 rest).1)
      obtain ⟨hs, -⟩ := findFirst_decomp hf
      obtain ⟨g1, g2, hcapsEq, hnosub, hrestHead⟩ := findFirstR1_props hf
      obtain ⟨g1', gap, g2', hm, hg1ne, hg1w, hgapc, hg2c, hcaps'⟩ := matchesR1_shape hM
      have hgg : g1 = g1' ∧ g2 = g2' := by
        rw [hcapsEq] at hcaps'
        simpa using hcaps'
      obtain ⟨rfl, rfl⟩ : g1 = g1' ∧ g2 = g2' := hgg
      have hR : instT tmplR1 caps = sPub ++ (g1 ++ (sHandle ++ g2)) := by
        rw [hcapsEq, instR1_eval]
      have hmpos : 0 < m.length := List.length_pos.mpr hmne
      have hlenrest : rest.length ≤ N := by
        have hsl := congrArg List.length hs
        simp only [List.length_append] at hsl
        omega
      have hIH : ¬ Occurs patAtomsR1 ((subn patAtomsR1 tmplR1 rest).1) :=
        ihN rest hlenrest
      have hOhead : (subn patAtomsR1 tmplR1 rest).1 = [] ∨
          ((subn patAtomsR1 tmplR1 rest).1).head? = some ')' :=
        subnR1_headed hrestHead
      set O : Str := (subn patAtomsR1 tmplR1 rest).1 with hO
      intro hocc
      rw [occurs_R1_iff_core] at hocc
      obtain ⟨x, mo, y, capso, hot, hMo⟩ := hocc
      obtain ⟨go1, gapo, hmo, hgo1ne, hgo1w, hgapoc, hcapso⟩ := matchesR1core_shape hMo
      have hnorp : ')' ∉ mo := coreR1_no_rparen hMo
      rcases occSplit hot.symm with hin | hin | hin | hin | hin | hin
      · obtain ⟨a, b, hpre2⟩ := hin
        exact not_occurs_pre hf (fun _ _ h => matchesR1_ne_nil h)
          (occurs_R1_iff_core.mpr ⟨a, mo, b, capso, hpre2, hMo⟩)
      · have hsdbmo : SubOf sDb mo :=
          ⟨sPub ++ (go1 ++ ("(".data ++ gapo)), [], by rw [hmo]; simp⟩
        have hsdbR : SubOf sDb (instT tmplR1 caps) := subOf_trans hsdbmo hin
        rw [hR] at hsdbR
        exact sDb_not_sub_inst hg1w hnosub hsdbR
      · obtain ⟨a, b, hO2⟩ := hin
        exact hIH (occurs_R1_iff_core.mpr ⟨a, mo, b, capso, hO2, hMo⟩)
      · obtain ⟨mo₁, mo₂, x₁, y₁, hmo12, hmo₁ne, hmo₂ne, hpreEq, hREq⟩ := hin
        have hmoA : mo = (sPub ++ (go1 ++ ("(".data ++ gapo))) ++ sDb := by
          rw [hmo]; simp
        have ht : mo₁ ++ mo₂ = (sPub ++ (go1 ++ ("(".data ++ gapo))) ++ sDb :=
          hmo12.symm.trans hmoA
        by_cases hlen2 : mo₂.length ≤ sDb.length
        · have hsuf : SufOf mo₂ sDb := (split_tail ht).1 hlen2
          have hRpu : instT tmplR1 caps =
              'p' :: 'u' :: ("b async fn ".data ++ (g1 ++ (sHandle ++ g2))) := by
            rw [hR, sPub_cons]
            simp
          cases hmo₂c : mo₂ with
          | nil => exact hmo₂ne hmo₂c
          | cons c2 mo₂' =>
            rw [hmo₂c] at hREq
            rw [hRpu] at hREq
            simp only [List.cons_append] at hREq
            have hc2 : 'p' = c2 := (List.cons.injEq .. |>.mp hREq).1
            have hREq' := (List.cons.injEq .. |>.mp hREq).2
            cases hmo₂'c : mo₂' with
            | nil =>
              rw [hmo₂c, hmo₂'c] at hsuf
              have hlast : sDb.getLast? = some c2 :=
                (sufOf_getLast hsuf (by simp)).trans rfl
              rw [sDb_getLast] at hlast
              have : ')' ∉ sDb := by decide
              have hgt : c2 = '>' := by simpa using hlast.symm
              rw [← hc2] at hgt
              exact absurd hgt (by decide)
            | cons c3 mo₂'' =>
              rw [hmo₂'c] at hREq'
              simp only [List.cons_append] at hREq'
              have hc3 : 'u' = c3 := (List.cons.injEq .. |>.mp hREq').1
              have hmem : 'u' ∈ mo₂ := by
                rw [hmo₂c, hmo₂'c, ← hc3]
                simp
              have : 'u' ∈ sDb := mem_of_subOf (subOf_of_sufOf hsuf) hmem
              exact u_not_mem_sDb this
        · have hsub2 : SubOf sDb mo₂ := (split_tail ht).2 (by omega)
          have hsdbR : SubOf sDb (instT tmplR1 caps) :=
            subOf_trans hsub2 (subOf_of_preOf ⟨y₁, hREq⟩)
          rw [hR] at hsdbR
          exact sDb_not_sub_inst hg1w hnosub hsdbR
      · obtain ⟨mo₁, mo₂, x₁, y₁, hmo12, hmo₁ne, hmo₂ne, hREq, hOEq⟩ := hin
        rcases hOhead with hO0 | hOh
        · rw [hO0] at hOEq
          cases hmo₂c : mo₂ with
          | nil => exact hmo₂ne hmo₂c
          | cons c2 mo₂' =>
            rw [hmo₂c] at hOEq
            simp at hOEq
        · obtain ⟨c2, mo₂', rfl⟩ : ∃ c2 mo₂', mo₂ = c2 :: mo₂' := by
            cases mo₂ with
            | nil => exact absurd rfl hmo₂ne
            | cons a l => exact ⟨a, l, rfl⟩
          rw [hOEq] at hOh
          simp only [List.cons_append, List.head?_cons] at hOh
          have hc2 : c2 = ')' := by simpa using hOh
          have : ')' ∈ mo := by
            rw [hmo12, hc2]
            simp
          exact hnorp this
      · obtain ⟨mo₁, mo₃, x₁, y₁, hmo13, hmo₁ne, hmo₃ne, hpreEq, hOEq⟩ := hin
        rcases hOhead with hO0 | hOh
        · rw [hO0] at hOEq
          cases hmo₃c : mo₃ with
          | nil => exact hmo₃ne hmo₃c
          | cons c2 mo₃' =>
            rw [hmo₃c] at hOEq
            simp at hOEq
        · obtain ⟨c2, mo₃', rfl⟩ : ∃ c2 mo₃', mo₃ = c2 :: mo₃' := by
            cases mo₃ with
            | nil => exact absurd rfl hmo₃ne
            | cons a l => exact ⟨a, l, rfl⟩
          rw [hOEq] at hOh
          simp only [List.cons_append, List.head?_cons] at hOh
          have hc2 : c2 = ')' := by simpa using hOh
          have : ')' ∈ mo := by
            rw [hmo13, hc2]
            simp
          exact hnorp this

/-! ## Rule 2 of `fix_commands.py`: literal replacement is self-clean and
preserves rule 1 cleanliness -/

theorem matchesR2_ne_nil {m : Str} {caps : List Str}
    (h : Matches patAtomsR2 m caps) : m ≠ [] := by
  rw [(matchesR2_shape h).1]
  decide

theorem findFirst_nil_R2 : findFirst patAtomsR2 [] = none := by decide

theorem sConn_not_sub_repR2 : ¬ SubOf sConn repR2 := by
  rw [subOf_iff]; decide

theorem repR2_not_sub_sConn : ¬ SubOf repR2 sConn := by
  rw [subOf_iff]; decide

theorem noMeetB_sConn_repR2 : noMeetB sConn repR2 = true := by decide

theorem noMeetB_repR2_sConn : noMeetB repR2 sConn = true := by decide

theorem instR2_eval (caps : List Str) : instT tmplR2 caps = repR2 := by
  simp [instT, tmplR2]

theorem cleanR2_aux : ∀ (N : Nat) (s : Str), s.length ≤ N →
    ¬ Occurs patAtomsR2 ((subn patAtomsR2 tmplR2 s).1) := by
  intro N
  induction N with
  | zero =>
    intro s hlen
    have hs0 : s = [] := List.length_eq_zero.mp (by omega)
    rw [hs0, subn_none findFirst_nil_R2]
    exact not_occurs_of_findFirst_none findFirst_nil_R2
  | succ N ihN =>
    intro s hlen
    cases hf : findFirst patAtomsR2 s with
    | none =>
      rw [subn_none hf]
      exact not_occurs_of_findFirst_none hf
    | some q =>
      obtain ⟨pre, caps, m, rest⟩ := q
      have hM : Matches patAtomsR2 m caps := by
        obtain ⟨hs, hma⟩ := findFirst_decomp hf
        have := (matchAtoms_sound _ _ _ _ hma).2
        rwa [List.take_left] at this
      have hmne : m ≠ [] := matchesR2_ne_nil hM
      rw [subn_some hf hmne]
      show ¬ Occurs patAtomsR2
        (pre ++ instT tmplR2 caps ++ (subn patAtomsR2 tmplR2 rest).1)
      obtain ⟨hs, -⟩ := findFirst_decomp hf
      have hmpos : 0 < m.length := List.length_pos.mpr hmne
      have hlenrest : rest.length ≤ N := by
        have hsl := congrArg List.length hs
        simp only [List.length_append] at hsl
        omega
      have hIH := ihN rest hlenrest
      rw [instR2_eval]
      intro hocc
      obtain ⟨x, mo, y, capso, hot, hMo⟩ := hocc
      obtain ⟨hmo, -⟩ := matchesR2_shape hMo
      rcases occSplit hot.symm with hin | hin | hin | hin | hin | hin
      · obtain ⟨a, b, hpre2⟩ := hin
        exact not_occurs_pre hf (fun _ _ h => matchesR2_ne_nil h)
          ⟨a, mo, b, capso, hpre2, hMo⟩
      · rw [hmo] at hin
        exact sConn_not_sub_repR2 hin
      · obtain ⟨a, b, hO2⟩ := hin
        exact hIH ⟨a, mo, b, capso, hO2, hMo⟩
      · obtain ⟨mo₁, mo₂, x₁, y₁, hmo12, hmo₁ne, hmo₂ne, hpreEq, hREq⟩ := hin
        refine noMeet noMeetB_sConn_repR2 mo₂ hmo₂ne ⟨mo₁, ?_⟩ ⟨y₁, hREq⟩
        rw [← hmo]
        exact hmo12
      · obtain ⟨mo₁, mo₂, x₁, y₁, hmo12, hmo₁ne, hmo₂ne, hREq, hOEq⟩ := hin
        refine noMeet noMeetB_repR2_sConn mo₁ hmo₁ne ⟨x₁, hREq⟩ ⟨mo₂, ?_⟩
        rw [← hmo]
        exact hmo12
      · obtain ⟨mo₁, mo₃, x₁, y₁, hmo13, hmo₁ne, hmo₃ne, hpreEq, hOEq⟩ := hin
        have hsubc : SubOf repR2 sConn := ⟨mo₁, mo₃, by rw [← hmo]; exact hmo13⟩
        exact repR2_not_sub_sConn hsubc

theorem sDb_not_sub_repR2 : ¬ SubOf sDb repR2 := by
  rw [subOf_iff]; decide

theorem repR2_getLast : repR2.getLast? = some ')' := by decide

theorem g_not_mem_sDb : 'g' ∉ sDb := by decide

theorem repR2_cons : repR2 = 'g' :: "et_connection(&get_db_path(&app)?)".data := by
  decide

theorem cleanR1_preserved : ∀ (N : Nat) (t : Str), t.length ≤ N →
    ¬ Occurs patAtomsR1 t →
    ¬ Occurs patAtomsR1 ((subn patAtomsR2 tmplR2 t).1) := by
  intro N
  induction N with
  | zero =>
    intro t hlen hcl
    have ht0 : t = [] := List.length_eq_zero.mp (by omega)
    rw [ht0, subn_none findFirst_nil_R2]
    rw [ht0] at hcl
    exact hcl
  | succ N ihN =>
    intro t hlen hcl
    cases hf : findFirst patAtomsR2 t with
    | none =>
      rw [subn_none hf]
      exact hcl
    | some q =>
      obtain ⟨pre, caps, m, rest⟩ := q
      have hM : Matches patAtomsR2 m caps := by
        obtain ⟨hs, hma⟩ := findFirst_decomp hf
        have := (matchAtoms_sound _ _ _ _ hma).2
        rwa [List.take_left] at this
      have hmne : m ≠ [] := matchesR2_ne_nil hM
      rw [subn_some hf hmne]
      show ¬ Occurs patAtomsR1
        (pre ++ instT tmplR2 caps ++ (subn patAtomsR2 tmplR2 rest).1)
      obtain ⟨hs, -⟩ := findFirst_decomp hf
      obtain ⟨hmeq, -⟩ := matchesR2_shape hM
      have hmpos : 0 < m.length := List.length_pos.mpr hmne
      have hlenrest : rest.length ≤ N := by
        have hsl := congrArg List.length hs
        simp only [List.length_append] at hsl
        omega
      have hclrest : ¬ Occurs patAtomsR1 rest := fun ho =>
        hcl (occurs_of_subOf ho ⟨pre ++ m, [], by rw [hs]; simp⟩)
      have hclpre : ¬ Occurs patAtomsR1 pre := fun ho =>
        hcl (occurs_of_subOf ho ⟨[], m ++ rest, by rw [hs]; simp⟩)
      have hIH := ihN rest hlenrest hclrest
      rw [instR2_eval]
      intro hocc
      rw [occurs_R1_iff_core] at hocc
      obtain ⟨x, mo, y, capso, hot, hMo⟩ := hocc
      obtain ⟨go1, gapo, hmo, hgo1ne, hgo1w, hgapoc, hcapso⟩ := matchesR1core_shape hMo
      have hnorp : ')' ∉ mo := coreR1_no_rparen hMo
      rcases occSplit hot.symm with hin | hin | hin | hin | hin | hin
      · obtain ⟨a, b, hpre2⟩ := hin
        exact hclpre (occurs_R1_iff_core.mpr ⟨a, mo, b, capso, hpre2, hMo⟩)
      · have hsdbmo : SubOf sDb mo :=
          ⟨sPub ++ (go1 ++ ("(".data ++ gapo)), [], by rw [hmo]; simp⟩
        exact sDb_not_sub_repR2 (subOf_trans hsdbmo hin)
      · obtain ⟨a, b, hO2⟩ := hin
        exact hIH (occurs_R1_iff_core.mpr ⟨a, mo, b, capso, hO2, hMo⟩)
      · obtain ⟨mo₁, mo₂, x₁, y₁, hmo12, hmo₁ne, hmo₂ne, hpreEq, hREq⟩ := hin
        have hmoA : mo = (sPub ++ (go1 ++ ("(".data ++ gapo))) ++ sDb := by
          rw [hmo]; simp
        have ht2 : mo₁ ++ mo₂ = (sPub ++ (go1 ++ ("(".data ++ gapo))) ++ sDb :=
          hmo12.symm.trans hmoA
        by_cases hlen2 : mo₂.length ≤ sDb.length
        · have hsuf : SufOf mo₂ sDb := (split_tail ht2).1 hlen2
          obtain ⟨c2, mo₂', rfl⟩ : ∃ c2 mo₂', mo₂ = c2 :: mo₂' := by
            cases mo₂ with
            | nil => exact absurd rfl hmo₂ne
            | cons a l => exact ⟨a, l, rfl⟩
          rw [repR2_cons] at hREq
          have hc2 : 'g' = c2 := by
            simp only [List.cons_append] at hREq
            exact (List.cons.injEq .. |>.mp hREq).1
          have hmem : 'g' ∈ sDb := by
            refine mem_of_subOf (subOf_of_sufOf hsuf) ?_
            rw [← hc2] at *
            simp [← hc2]
          exact g_not_mem_sDb hmem
        · have hsub2 : SubOf sDb mo₂ := (split_tail ht2).2 (by omega)
          exact sDb_not_sub_repR2
            (subOf_trans hsub2 (subOf_of_preOf ⟨y₁, hREq⟩))
      · obtain ⟨mo₁, mo₂, x₁, y₁, hmo12, hmo₁ne, hmo₂ne, hREq, hOEq⟩ := hin
        have hsuf1 : SufOf mo₁ repR2 := ⟨x₁, hREq⟩
        have hlast : mo₁.getLast? = some ')' := by
          rw [← sufOf_getLast hsuf1 hmo₁ne]
          exact repR2_getLast
        have hmem : ')' ∈ mo := by
          rw [hmo12]
          exact List.mem_append.mpr (Or.inl (mem_of_getLast? hlast))
        exact hnorp hmem
      · obtain ⟨mo₁, mo₃, x₁, y₁, hmo13, hmo₁ne, hmo₃ne, hpreEq, hOEq⟩ := hin
        have hmem : ')' ∈ mo := by
          rw [hmo13]
          have : ')' ∈ repR2 := by decide
          simp [this]
        exact hnorp hmem

/-! ## Idempotence of the `fix_all_db_paths.py` substitution -/

theorem matchesA_ne_nil {m : Str} {caps : List Str}
    (h : Matches patAtomsA m caps) : m ≠ [] := by
  obtain ⟨w1, w2, w3, w4, op, w5, hmo, -⟩ := matchesA_shape h
  intro h0
  rw [h0] at hmo
  exact absurd hmo.symm (by simp [sA1])

theorem findFirst_nil_A : findFirst patAtomsA [] = none := by decide

theorem instA_eval (caps : List Str) : instT tmplA caps = repA := by
  simp [instT, tmplA]

theorem fragA_ne_nil : fragA ≠ [] := by decide

theorem fragA_noWs : ∀ c ∈ fragA, wsP c = false := by decide

theorem repA_split : repA = "let db_path = ".data ++ fragA ++ [] := by decide

theorem noMeetB_sA6_repA : noMeetB sA6 repA = true := by decide

theorem noMeetB_repA_sA1 : noMeetB repA sA1 = true := by decide

set_option maxRecDepth 4000 in
theorem fragA_not_sub_concatA_none : ¬ SubOf fragA (concatA []) := by
  rw [subOf_iff]; decide

set_option maxRecDepth 4000 in
theorem fragA_not_sub_concatA_paren : ¬ SubOf fragA (concatA [')']) := by
  rw [subOf_iff]; decide

/-- Removing all five whitespace gaps of a `fix_all_db_paths.py` match
preserves any whitespace-free substring: it must already occur in the plain
concatenation of the pattern chunks. -/
theorem subA_noWs {t : Str} (ht : t ≠ []) (hq : ∀ c ∈ t, wsP c = false)
    {w1 w2 w3 w4 w5 op : Str}
    (h1 : ∀ c ∈ w1, wsP c = true) (h2 : ∀ c ∈ w2, wsP c = true)
    (h3 : ∀ c ∈ w3, wsP c = true) (h4 : ∀ c ∈ w4, wsP c = true)
    (h5 : ∀ c ∈ w5, wsP c = true)
    (h : SubOf t (sA1 ++ (w1 ++ (sA2 ++ (w2 ++ (sA3 ++ (w3 ++ (sA4 ++ (w4 ++
      ("\x7d".data ++ (op ++ (";".data ++ (w5 ++ sA6))))))))))))) :
    SubOf t (concatA op) := by
  have g1 : SubOf t (sA1 ++
      (sA2 ++ (w2 ++ (sA3 ++ (w3 ++ (sA4 ++ (w4 ++
        ("\x7d".data ++ (op ++ (";".data ++ (w5 ++ sA6))))))))))) := by
    refine dropGap ht hq h1 ?_
    rw [← List.append_assoc] at h
    exact h
  have g2 : SubOf t (sA1 ++ sA2 ++
      (sA3 ++ (w3 ++ (sA4 ++ (w4 ++
        ("\x7d".data ++ (op ++ (";".data ++ (w5 ++ sA6))))))))) := by
    refine dropGap ht hq h2 ?_
    have he : sA1 ++ sA2 ++ w2 ++
        (sA3 ++ (w3 ++ (sA4 ++ (w4 ++
          ("\x7d".data ++ (op ++ (";".data ++ (w5 ++ sA6)))))))) =
        sA1 ++ (sA2 ++ (w2 ++ (sA3 ++ (w3 ++ (sA4 ++ (w4 ++
          ("\x7d".data ++ (op ++ (";".data ++ (w5 ++ sA6)))))))))) := by
      simp
    rw [he]
    exact g1
  have g3 : SubOf t (sA1 ++ sA2 ++ sA3 ++
      (sA4 ++ (w4 ++ ("\x7d".data ++ (op ++ (";".data ++ (w5 ++ sA6))))))) := by
    refine dropGap ht hq h3 ?_
    have he : sA1 ++ sA2 ++ sA3 ++ w3 ++
        (sA4 ++ (w4 ++ ("\x7d".data ++ (op ++ (";".data ++ (w5 ++ sA6)))))) =
        sA1 ++ sA2 ++ (sA3 ++ (w3 ++ (sA4 ++ (w4 ++
          ("\x7d".data ++ (op ++ (";".data ++ (w5 ++ sA6)))))))) := by
      simp
    rw [he]
    exact g2
  have g4 : SubOf t (sA1 ++ sA2 ++ sA3 ++ sA4 ++
      ("\x7d".data ++ (op ++ (";".data ++ (w5 ++ sA6))))) := by
    refine dropGap ht hq h4 ?_
    have he : sA1 ++ sA2 ++ sA3 ++ sA4 ++ w4 ++
        ("\x7d".data ++ (op ++ (";".data ++ (w5 ++ sA6)))) =
        sA1 ++ sA2 ++ sA3 ++ (sA4 ++ (w4 ++
          ("\x7d".data ++ (op ++ (";".data ++ (w5 ++ sA6)))))) := by
      simp
    rw [he]
    exact g3
  have g5 : SubOf t (sA1 ++ sA2 ++ sA3 ++ sA4 ++ "\x7d".data ++ op ++
      ";".data ++ sA6) := by
    refine dropGap ht hq h5 ?_
    have he : sA1 ++ sA2 ++ sA3 ++ sA4 ++ "\x7d".data ++ op ++ ";".data ++
        w5 ++ sA6 =
        sA1 ++ sA2 ++ sA3 ++ sA4 ++
          ("\x7d".data ++ (op ++ (";".data ++ (w5 ++ sA6)))) := by
      simp
    rw [he]
    exact g4
  exact g5

theorem cleanA_aux : ∀ (N : Nat) (s : Str), s.length ≤ N →
    ¬ Occurs patAtomsA ((subn patAtomsA tmplA s).1) := by
  intro N
  induction N with
  | zero =>
    intro s hlen
    have hs0 : s = [] := List.length_eq_zero.mp (by omega)
    rw [hs0, subn_none findFirst_nil_A]
    rintro ⟨x, mo, y, capso, hxy, hMo⟩
    have hne := matchesA_ne_nil hMo
    have : mo = [] := by
      have := List.append_eq_nil.mp hxy.symm
      exact (List.append_eq_nil.mp this.1).2
    exact hne this
  | succ N ihN =>
    intro s hlen
    cases hf : findFirst patAtomsA s with
    | none =>
      rw [subn_none hf]
      exact not_occurs_of_findFirst_none hf
    | some q =>
      obtain ⟨pre, caps, m, rest⟩ := q
      have hM : Matches patAtomsA m caps := by
        obtain ⟨hs, hma⟩ := findFirst_decomp hf
        have := (matchAtoms_sound _ _ _ _ hma).2
        rwa [List.take_left] at this
      have hmne : m ≠ [] := matchesA_ne_nil hM
      rw [subn_some hf hmne]
      show ¬ Occurs patAtomsA
        (pre ++ instT tmplA caps ++ (subn patAtomsA tmplA rest).1)
      obtain ⟨hs, -⟩ := findFirst_decomp hf
      have hmpos : 0 < m.length := List.length_pos.mpr hmne
      have hlenrest : rest.length ≤ N := by
        have hsl := congrArg List.length hs
        simp only [List.length_append] at hsl
        omega
      have hIH := ihN rest hlenrest
      have hclpre : ¬ Occurs patAtomsA pre :=
        not_occurs_pre hf fun m' caps' hM' => matchesA_ne_nil hM'
      rw [instA_eval]
      rintro ⟨x, mo, y, capso, hot, hMo⟩
      obtain ⟨w1, w2, w3, w4, op, w5, hmo, hw1, hw2, hw3, hw4, hw5, hop⟩ :=
        matchesA_shape hMo
      rcases occSplit hot.symm with hin | hin | hin | hin | hin | hin
      · obtain ⟨a, b, hpre2⟩ := hin
        exact hclpre ⟨a, mo, b, capso, hpre2, hMo⟩
      · have hle := subOf_length_le hin
        have hlmo := congrArg List.length hmo
        simp only [List.length_append] at hlmo
        have h45 : sA1.length = 44 := by decide
        have h33 : repA.length = 33 := by decide
        omega
      · obtain ⟨a, b, hO2⟩ := hin
        exact hIH ⟨a, mo, b, capso, hO2, hMo⟩
      · obtain ⟨mo₁, mo₂, x₁, y₁, hmo12, hmo₁ne, hmo₂ne, hpreEq, hREq⟩ := hin
        have hmoA : mo = (sA1 ++ w1 ++ sA2 ++ w2 ++ sA3 ++ w3 ++ sA4 ++ w4 ++
            "\x7d".data ++ op ++ ";".data ++ w5) ++ sA6 := by
          rw [hmo]; simp
        have ht2 : mo₁ ++ mo₂ = (sA1 ++ w1 ++ sA2 ++ w2 ++ sA3 ++ w3 ++ sA4 ++
            w4 ++ "\x7d".data ++ op ++ ";".data ++ w5) ++ sA6 :=
          hmo12.symm.trans hmoA
        have hpre2 : PreOf mo₂ repA := ⟨y₁, hREq⟩
        have hlen2 : mo₂.length ≤ sA6.length := by
          have hple := preOf_length_le hpre2
          have h33 : repA.length = 33 := by decide
          have h51 : sA6.length = 51 := by decide
          omega
        exact noMeet noMeetB_sA6_repA mo₂ hmo₂ne ((split_tail ht2).1 hlen2) hpre2
      · obtain ⟨mo₁, mo₂, x₁, y₁, hmo12, hmo₁ne, hmo₂ne, hREq, hOEq⟩ := hin
        have hmoH : mo₁ ++ mo₂ = sA1 ++ (w1 ++ (sA2 ++ (w2 ++ (sA3 ++ (w3 ++
            (sA4 ++ (w4 ++ ("\x7d".data ++ (op ++ (";".data ++
              (w5 ++ sA6))))))))))) :=
          hmo12.symm.trans hmo
        have hsuf1 : SufOf mo₁ repA := ⟨x₁, hREq⟩
        have hlen1 : mo₁.length ≤ sA1.length := by
          have hsle := sufOf_length_le hsuf1
          have h33 : repA.length = 33 := by decide
          have h45 : sA1.length = 44 := by decide
          omega
        exact noMeet noMeetB_repA_sA1 mo₁ hmo₁ne hsuf1 (split_head hmoH hlen1)
      · obtain ⟨mo₁, mo₃, x₁, y₁, hmo13, hmo₁ne, hmo₃ne, hpreEq, hOEq⟩ := hin
        have hsubrep : SubOf repA mo := ⟨mo₁, mo₃, hmo13⟩
        have hsubfrag : SubOf fragA mo :=
          subOf_trans ⟨"let db_path = ".data, [], repA_split⟩ hsubrep
        rw [hmo] at hsubfrag
        have hfin := subA_noWs fragA_ne_nil fragA_noWs hw1 hw2 hw3 hw4 hw5
          hsubfrag
        rcases hop with rfl | rfl
        · exact fragA_not_sub_concatA_none hfin
        · exact fragA_not_sub_concatA_paren hfin

/-! ## Whole-script evaluation: each script reads, substitutes, writes -/

theorem runScript_eval_A (d : Str) : runScript fixAllDbPathsRules d =
    ({ disk := (subn patAtomsA tmplA d).1, buf := (subn patAtomsA tmplA d).1,
       counts := [(subn patAtomsA tmplA d).2], writes := 1 }, none) := rfl

theorem runScript_eval_cmds (d : Str) : runScript fixCommandsRules d =
    ({ disk := (subn patAtomsR2 tmplR2 (subn patAtomsR1 tmplR1 d).1).1,
       buf := (subn patAtomsR2 tmplR2 (subn patAtomsR1 tmplR1 d).1).1,
       counts := [(subn patAtomsR1 tmplR1 d).2,
         (subn patAtomsR2 tmplR2 (subn patAtomsR1 tmplR1 d).1).2],
       writes := 1 }, none) := rfl

theorem runScript_eval_B (d : Str) : runScript fixCommands2Rules d =
    ({ disk := (subn patAtomsB tmplB d).1, buf := (subn patAtomsB tmplB d).1,
       counts := [(subn patAtomsB tmplB d).2], writes := 1 }, none) := rfl

theorem runScript_eval_V2 (d : Str) : runScript fixDbPathsV2Rules d =
    ({ disk := (subn patAtomsV2 tmplV2 d).1, buf := (subn patAtomsV2 tmplV2 d).1,
       counts := [(subn patAtomsV2 tmplV2 d).2], writes := 1 }, none) := rfl

/-- A script whose first rule's template references a group its pattern does
not define aborts on that rule: nothing is substituted, nothing written, and
the remaining rules never run. -/
theorem runScript_first_rule_err (r : Rule) (rest : List Rule) (d : Str)
    (h : ngroups r.pat < tmplMaxGrp r.tmpl) :
    runScript (r :: rest) d =
      ({ disk := d, buf := d, counts := [], writes := 0 },
        some (groupRefErr (tmplMaxGrp r.tmpl))) := by
  have hn : ¬ tmplMaxGrp r.tmpl ≤ ngroups r.pat := by omega
  simp [runScript, scriptStmts, runStmts, stepStmt, reSubnE, hn]

/-- A script run that raises keeps the disk and the write count of the state
it had reached; substitutions never touch the disk, so both are the initial
ones. -/
theorem runStmts_err_frame : ∀ (rules : List Rule) (st res : PState) (e : Str),
    runStmts (rules.map .substRule ++ [.writeFile]) st = (res, some e) →
    res.disk = st.disk ∧ res.writes = st.writes := by
  intro rules
  induction rules with
  | nil =>
    intro st res e h
    simp [runStmts, stepStmt] at h
  | cons r rs ih =>
    intro st res e h
    cases hr : reSubnE r st.buf with
    | ok p =>
      simp only [List.map_cons, List.cons_append, runStmts, stepStmt, hr] at h
      exact ih ⟨st.disk, p.1, st.counts ++ [p.2], st.writes⟩ res e h
    | error e2 =>
      simp only [List.map_cons, List.cons_append, runStmts, stepStmt, hr] at h
      obtain ⟨h1, -⟩ := Prod.mk.injEq .. |>.mp h
      rw [← h1]
      exact ⟨rfl, rfl⟩

/-! ## The scanner's match list: counts, ascending starts, no overlap -/

theorem findAllF_succ_none {pat : List Atom} {fuel off : Nat} {s : Str}
    (h : findFirst pat s = none) : findAllF pat (fuel + 1) off s = [] := by
  simp only [findAllF, h]

theorem findAllF_succ_endEmpty {pat : List Atom} {fuel off : Nat}
    {s pre : Str} {caps : List Str}
    (h : findFirst pat s = some (pre, caps, [], [])) :
    findAllF pat (fuel + 1) off s = [(off + pre.length, 0)] := by
  simp only [findAllF, h]

theorem findAllF_succ_emptyCons {pat : List Atom} {fuel off : Nat}
    {s pre rs : Str} {c : Char} {caps : List Str}
    (h : findFirst pat s = some (pre, caps, [], c :: rs)) :
    findAllF pat (fuel + 1) off s =
      (off + pre.length, 0) :: findAllF pat fuel (off + pre.length + 1) rs := by
  simp only [findAllF, h]

theorem findAllF_succ_cons {pat : List Atom} {fuel off : Nat}
    {s pre mtl rest : Str} {mc : Char} {caps : List Str}
    (h : findFirst pat s = some (pre, caps, mc :: mtl, rest)) :
    findAllF pat (fuel + 1) off s =
      (off + pre.length, (mc :: mtl).length) ::
        findAllF pat fuel (off + pre.length + (mc :: mtl).length) rest := by
  simp only [findAllF, h]

/-- The substitution count of `re.subn` is the number of matches the scanner
selects. -/
theorem subnF_count_eq_findAllF (pat : List Atom) (tmpl : List TIt) :
    ∀ (fuel off : Nat) (s : Str),
    (subnF pat tmpl fuel s).2 = (findAllF pat fuel off s).length := by
  intro fuel
  induction fuel with
  | zero => intro off s; rfl
  | succ f ihf =>
    intro off s
    cases hf : findFirst pat s with
    | none => rw [subnF_succ_none hf, findAllF_succ_none hf]; rfl
    | some q =>
      obtain ⟨pre, caps, m, rest⟩ := q
      cases m with
      | nil =>
        cases rest with
        | nil => rw [subnF_succ_endEmpty hf, findAllF_succ_endEmpty hf]; rfl
        | cons c rs =>
          rw [subnF_succ_emptyCons hf, findAllF_succ_emptyCons hf]
          simp only [List.length_cons]
          rw [ihf (off + pre.length + 1) rs]
      | cons mc mtl =>
        rw [subnF_succ_cons hf, findAllF_succ_cons hf]
        simp only [List.length_cons]
        rw [ihf (off + pre.length + (mtl.length + 1)) rest]

/-- Every match the scanner selects starts at or after the scan offset, and
consecutive matches do not overlap: each starts strictly after the previous
start and at or after the previous end. -/
theorem findAllF_ascending (pat : List Atom) :
    ∀ (fuel off : Nat) (s : Str),
    (∀ p ∈ findAllF pat fuel off s, off ≤ p.1) ∧
    List.Chain' (fun p q : Nat × Nat => p.1 + p.2 ≤ q.1 ∧ p.1 < q.1)
      (findAllF pat fuel off s) := by
  intro fuel
  induction fuel with
  | zero => intro off s; exact ⟨by intro p hp; simp [findAllF] at hp, by simp [findAllF]⟩
  | succ f ihf =>
    intro off s
    cases hf : findFirst pat s with
    | none =>
      rw [findAllF_succ_none hf]
      exact ⟨by intro p hp; simp at hp, by simp⟩
    | some q =>
      obtain ⟨pre, caps, m, rest⟩ := q
      cases m with
      | nil =>
        cases rest with
        | nil =>
          rw [findAllF_succ_endEmpty hf]
          constructor
          · intro p hp
            simp only [List.mem_singleton] at hp
            rw [hp]
            exact Nat.le_add_right off pre.length
          · exact List.chain'_singleton _
        | cons c rs =>
          rw [findAllF_succ_emptyCons hf]
          obtain ⟨hbd, hch⟩ := ihf (off + pre.length + 1) rs
          constructor
          · intro p hp
            rcases List.mem_cons.mp hp with rfl | hp
            · exact Nat.le_add_right off pre.length
            · have := hbd p hp
              omega
          · rw [List.chain'_cons']
            refine ⟨?_, hch⟩
            intro q hq
            have hqb := hbd q (List.mem_of_mem_head? hq)
            constructor <;> omega
      | cons mc mtl =>
        rw [findAllF_succ_cons hf]
        obtain ⟨hbd, hch⟩ := ihf (off + pre.length + (mc :: mtl).length) rest
        have hmlen : 0 < (mc :: mtl).length := by simp
        constructor
        · intro p hp
          rcases List.mem_cons.mp hp with rfl | hp
          · exact Nat.le_add_right off pre.length
          · have := hbd p hp
            omega
        · rw [List.chain'_cons']
          refine ⟨?_, hch⟩
          intro q hq
          have hqb := hbd q (List.mem_of_mem_head? hq)
          constructor <;> omega

/-! ## The fixpoint coordinator's contract -/

/-- What each outcome of the fixpoint loop means, with an arbitrary number
of passes already performed: convergence reports a stable document reached
by iterating the pass, and hitting the cap reports the document after
exactly the remaining passes. -/
theorem runFixpoint_spec (pass : Str → Str × Nat) :
    ∀ (fuel done : Nat) (d doc : Str) (iters : Nat),
    (runFixpoint pass fuel done d = .converged doc iters →
      done ≤ iters ∧ iters ≤ done + fuel ∧ (pass doc).2 = 0 ∧
        doc = iteratePass pass (iters - done) d)
  ∧ (runFixpoint pass fuel done d = .nonConverged doc iters →
      iters = done + fuel ∧ doc = iteratePass pass fuel d) := by
  intro fuel
  induction fuel with
  | zero =>
    intro done d doc iters
    constructor
    · intro h
      exact absurd h (by simp [runFixpoint])
    · intro h
      simp only [runFixpoint, FixOutcome.nonConverged.injEq] at h
      obtain ⟨rfl, rfl⟩ := h
      exact ⟨rfl, rfl⟩
  | succ f ihf =>
    intro done d doc iters
    by_cases h0 : (pass d).2 = 0
    · constructor
      · intro h
        simp only [runFixpoint, h0, beq_self_eq_true, if_true,
          FixOutcome.converged.injEq] at h
        obtain ⟨rfl, rfl⟩ := h
        refine ⟨le_rfl, by omega, h0, ?_⟩
        simp [iteratePass]
      · intro h
        simp only [runFixpoint, h0, beq_self_eq_true, if_true] at h
        exact absurd h (by simp)
    · have hb : ((pass d).2 == 0) = false := by
        simp only [beq_eq_false_iff_ne, ne_eq]
        exact h0
      constructor
      · intro h
        simp only [runFixpoint, hb, Bool.false_eq_true, if_false] at h
        obtain ⟨h1, h2, h3, h4⟩ := (ihf (done + 1) (pass d).1 doc iters).1 h
        refine ⟨by omega, by omega, h3, ?_⟩
        have hit : iters - done = (iters - (done + 1)) + 1 := by omega
        rw [hit]
        simp only [iteratePass]
        exact h4
      · intro h
        simp only [runFixpoint, hb, Bool.false_eq_true, if_false] at h
        obtain ⟨h1, h2⟩ := (ihf (done + 1) (pass d).1 doc iters).2 h
        refine ⟨by omega, ?_⟩
        simp only [iteratePass]
        exact h2

/-! ## The claims -/

/-- C1: Idempotence — rerunning a script on the file content its previous run
produced performs zero substitutions and leaves the content identical, for
`fix_all_db_paths.py` and for `fix_commands.py`. -/
theorem spec_C1_idempotent (d : Str) :
    (runScript fixAllDbPathsRules ((runScript fixAllDbPathsRules d).1.disk)).1.disk
        = (runScript fixAllDbPathsRules d).1.disk
  ∧ (runScript fixAllDbPathsRules ((runScript fixAllDbPathsRules d).1.disk)).1.counts = [0]
  ∧ (runScript fixCommandsRules ((runScript fixCommandsRules d).1.disk)).1.disk
        = (runScript fixCommandsRules d).1.disk
  ∧ (runScript fixCommandsRules ((runScript fixCommandsRules d).1.disk)).1.counts
        = [0, 0] := by
  have hA1 := cleanA_aux d.length d le_rfl
  have hA2 := @subn_self_of_not_occurs patAtomsA tmplA _ hA1
  have hc1 := cleanR1_aux d.length d le_rfl
  have hc2 := cleanR1_preserved ((subn patAtomsR1 tmplR1 d).1).length
    ((subn patAtomsR1 tmplR1 d).1) le_rfl hc1
  have hc3 := cleanR2_aux ((subn patAtomsR1 tmplR1 d).1).length
    ((subn patAtomsR1 tmplR1 d).1) le_rfl
  have hE2 := @subn_self_of_not_occurs patAtomsR1 tmplR1 _ hc2
  have hE3 := @subn_self_of_not_occurs patAtomsR2 tmplR2 _ hc3
  refine ⟨?_, ?_, ?_, ?_⟩
  · show (subn patAtomsA tmplA ((subn patAtomsA tmplA d).1)).1
        = (subn patAtomsA tmplA d).1
    rw [hA2]
  · show [(subn patAtomsA tmplA ((subn patAtomsA tmplA d).1)).2] = [0]
    rw [hA2]
  · show (subn patAtomsR2 tmplR2 ((subn patAtomsR1 tmplR1
        ((subn patAtomsR2 tmplR2 ((subn patAtomsR1 tmplR1 d).1)).1)).1)).1
      = (subn patAtomsR2 tmplR2 ((subn patAtomsR1 tmplR1 d).1)).1
    rw [hE2]
    show (subn patAtomsR2 tmplR2
        ((subn patAtomsR2 tmplR2 ((subn patAtomsR1 tmplR1 d).1)).1)).1
      = (subn patAtomsR2 tmplR2 ((subn patAtomsR1 tmplR1 d).1)).1
    rw [hE3]
  · show [(subn patAtomsR1 tmplR1
        ((subn patAtomsR2 tmplR2 ((subn patAtomsR1 tmplR1 d).1)).1)).2,
      (subn patAtomsR2 tmplR2 ((subn patAtomsR1 tmplR1
        ((subn patAtomsR2 tmplR2 ((subn patAtomsR1 tmplR1 d).1)).1)).1)).2] = [0, 0]
    rw [hE2]
    show [0, (subn patAtomsR2 tmplR2
        ((subn patAtomsR2 tmplR2 ((subn patAtomsR1 tmplR1 d).1)).1)).2] = [0, 0]
    rw [hE3]

/-- C2 (amended): on a document containing no occurrence of its pattern, a
script reports a zero substitution count and writes back identical content —
but it does write: the file is overwritten unconditionally, there is no
"only overwrite when the result differs" guard. -/
theorem spec_C2_noop_still_writes (d : Str)
    (hA : ¬ Occurs patAtomsA d) (hB : ¬ Occurs patAtomsB d) :
    runScript fixAllDbPathsRules d =
      ({ disk := d, buf := d, counts := [0], writes := 1 }, none)
  ∧ runScript fixCommands2Rules d =
      ({ disk := d, buf := d, counts := [0], writes := 1 }, none) := by
  constructor
  · rw [runScript_eval_A, @subn_self_of_not_occurs patAtomsA tmplA d hA]
  · rw [runScript_eval_B, @subn_self_of_not_occurs patAtomsB tmplB d hB]

theorem spec_C2_witness :
    ¬ Occurs patAtomsA docNone ∧ ¬ Occurs patAtomsB docNone
  ∧ runScript fixAllDbPathsRules docNone =
      ({ disk := docNone, buf := docNone, counts := [0], writes := 1 }, none)
  ∧ runScript fixCommands2Rules docNone =
      ({ disk := docNone, buf := docNone, counts := [0], writes := 1 }, none) :=
  ⟨not_occurs_of_findFirst_none (by decide),
   not_occurs_of_findFirst_none (by decide),
   (spec_C2_noop_still_writes docNone (not_occurs_of_findFirst_none (by decide))
     (not_occurs_of_findFirst_none (by decide))).1,
   (spec_C2_noop_still_writes docNone (not_occurs_of_findFirst_none (by decide))
     (not_occurs_of_findFirst_none (by decide))).2⟩

/-- C2 counterexample: `fix_all_db_paths.py` on a pattern-free document makes
zero substitutions and leaves the content identical, yet still performs a
write — the spec's "the file is only overwritten when the result differs"
does not hold of the code. -/
theorem spec_C2_counterexample :
    (runScript fixAllDbPathsRules docNone).1.buf = docNone
  ∧ (runScript fixAllDbPathsRules docNone).1.counts = [0]
  ∧ (runScript fixAllDbPathsRules docNone).1.writes = 1 := by
  decide

/-- C3 (amended): every script writes the substitution result back
unconditionally — the written content is exactly the `re.sub` output, a write
happens on every run, and no delimiter-balance (or any other) check guards
it. -/
theorem spec_C3_write_without_plausibility (d : Str) :
    ((runScript fixAllDbPathsRules d).1.disk = (subn patAtomsA tmplA d).1
      ∧ (runScript fixAllDbPathsRules d).1.writes = 1
      ∧ (runScript fixAllDbPathsRules d).2 = none)
  ∧ ((runScript fixDbPathsV2Rules d).1.disk = (subn patAtomsV2 tmplV2 d).1
      ∧ (runScript fixDbPathsV2Rules d).1.writes = 1
      ∧ (runScript fixDbPathsV2Rules d).2 = none) := by
  rw [runScript_eval_A, runScript_eval_V2]
  exact ⟨⟨rfl, rfl, rfl⟩, ⟨rfl, rfl, rfl⟩⟩

set_option maxRecDepth 10000 in
/-- C3 counterexample: a delimiter-balanced document whose rewrite by
`fix_all_db_paths.py` is delimiter-unbalanced is still written back: no
plausibility check exists and no run is rejected. -/
theorem spec_C3_counterexample :
    balancedDelims docUnbal = true
  ∧ runScript fixAllDbPathsRules docUnbal =
      ({ disk := repA ++ ")".data, buf := repA ++ ")".data,
         counts := [1], writes := 1 }, none)
  ∧ balancedDelims (repA ++ ")".data) = false := by
  refine ⟨by decide, by decide, by decide⟩

set_option maxRecDepth 10000 in
/-- C4: in one `re.sub` pass the substitution count equals the number of
matches the scanner selects, the selected matches are non-overlapping with
strictly ascending starts (leftmost-first), and on the two-site document both
sites are replaced, the count is 2, and the second replacement lands at the
original second start shifted by the first replacement's length delta. -/
theorem spec_C4_single_pass_offsets :
    (∀ s : Str,
      (subn patAtomsA tmplA s).2 = (findAllPos patAtomsA s).length
      ∧ List.Chain' (fun p q : Nat × Nat => p.1 + p.2 ≤ q.1 ∧ p.1 < q.1)
          (findAllPos patAtomsA s))
  ∧ subn patAtomsA tmplA docTwo = (docPre4 ++ repA ++ docMid4 ++ repA ++ docSuf4, 2)
  ∧ findAllPos patAtomsA docTwo = [(9, 220), (238, 220)]
  ∧ docPre4.length = 9 ∧ docIdiomN.length = 220 ∧ docMid4.length = 9
  ∧ repA.length = 33
  ∧ ((subn patAtomsA tmplA docTwo).1.drop (238 - (220 - 33))).take 33 = repA := by
  refine ⟨?_, by decide, by decide, by decide, by decide, by decide, by decide,
    by decide⟩
  intro s
  exact ⟨subnF_count_eq_findAllF patAtomsA tmplA (s.length + 1) 0 s,
    (findAllF_ascending patAtomsA (s.length + 1) 0 s).2⟩

set_option maxRecDepth 10000 in
/-- C5: the pattern of `fix_all_db_paths.py` does not tolerate the fallible
`\x7d)?;` ending: on the idiom written with `\x7d);` it substitutes once, but on
the same idiom written with `\x7d)?;` (the form real `map_err` call sites have)
it finds no match and substitutes nothing — `\}\)?;` makes the parenthesis
optional instead of matching a literal `)?`.  The `fix_commands2.py` pattern
ends the same way and also fails on it. -/
theorem spec_C5_fallible_ending_unmatched :
    docIdiomN = idiomPre ++ "\x7d);".data ++ idiomSuf
  ∧ docIdiomF = idiomPre ++ "\x7d)?;".data ++ idiomSuf
  ∧ subn patAtomsA tmplA docIdiomN = (repA, 1)
  ∧ subn patAtomsA tmplA docIdiomF = (docIdiomF, 0)
  ∧ findFirst patAtomsA docIdiomF = none
  ∧ subn patAtomsB tmplB docIdiomF = (docIdiomF, 0) := by
  refine ⟨rfl, rfl, by decide, by decide, by decide, by decide⟩

/-- C6 (amended): the replacement of `fix_commands.py` rule 1 contains the two
captured fragments (the function name and the parameters after `db_path`)
verbatim, but the uncaptured `[^)]*` text matched between `(` and `db_path:`
is not referenced by the template and is dropped from the replacement. -/
theorem spec_C6_captures_verbatim_gap_dropped (s pre m rest : Str)
    (caps : List Str)
    (hf : findFirst patAtomsR1 s = some (pre, caps, m, rest)) :
    ∃ g1 gap g2 : Str,
      caps = [g1, g2]
      ∧ m = sPub ++ (g1 ++ ("(".data ++ (gap ++ (sDb ++ g2))))
      ∧ instT tmplR1 caps = sPub ++ (g1 ++ (sHandle ++ g2)) := by
  have hM := findFirstR1_matched_shape hf
  obtain ⟨g1, gap, g2, hm, -, -, -, -, hcaps⟩ := matchesR1_shape hM
  exact ⟨g1, gap, g2, hcaps, hm, by rw [hcaps, instR1_eval]⟩

set_option maxRecDepth 10000 in
theorem spec_C6_witness :
    findFirst patAtomsR1 docGap = some ([], ["f".data, []], docGapM, docGapRest)
  ∧ ∃ g1 gap g2 : Str,
      ["f".data, ([] : Str)] = [g1, g2]
      ∧ docGapM = sPub ++ (g1 ++ ("(".data ++ (gap ++ (sDb ++ g2))))
      ∧ instT tmplR1 ["f".data, ([] : Str)] = sPub ++ (g1 ++ (sHandle ++ g2)) :=
  ⟨by decide, spec_C6_captures_verbatim_gap_dropped docGap [] docGapM docGapRest
    ["f".data, []] (by decide)⟩

set_option maxRecDepth 10000 in
/-- C6 counterexample: rewriting `docGap` drops the matched parameter text
`extra: u32, ` — it is in the document, the rule substitutes once, and the
dropped text is nowhere in the output: matched parameter text is silently
lost, refuting byte-for-byte fidelity of the matched span. -/
theorem spec_C6_counterexample :
    subn patAtomsR1 tmplR1 docGap = (docGapOut, 1)
  ∧ SubOf droppedGap docGap
  ∧ ¬ SubOf droppedGap docGapOut := by
  refine ⟨by decide, ?_, ?_⟩
  · rw [subOf_iff]; decide
  · rw [subOf_iff]; decide

/-- C7: the fixpoint mode of the spec's Pass Coordinator (modelled from the
spec; no script implements it) repeats single passes of the catalog until a
pass makes zero substitutions or the iteration cap is reached: convergence
within the cap reports a stable document reached by iterating the pass, and
exceeding the cap reports non-convergence carrying the document after
exactly `cap` passes and the iteration count; the default cap is 5. -/
theorem spec_C7_fixpoint_cap (cap : Nat) (d : Str) :
    (∀ (doc : Str) (iters : Nat),
      runFixpoint (catalogPass fixCommandsRules) cap 0 d = .converged doc iters →
        iters ≤ cap ∧ (catalogPass fixCommandsRules doc).2 = 0
          ∧ doc = iteratePass (catalogPass fixCommandsRules) iters d)
  ∧ (∀ (doc : Str) (iters : Nat),
      runFixpoint (catalogPass fixCommandsRules) cap 0 d = .nonConverged doc iters →
        iters = cap ∧ doc = iteratePass (catalogPass fixCommandsRules) cap d)
  ∧ fixpointDefaultCap = 5 := by
  refine ⟨?_, ?_, rfl⟩
  · intro doc iters h
    obtain ⟨-, h2, h3, h4⟩ :=
      (runFixpoint_spec (catalogPass fixCommandsRules) cap 0 d doc iters).1 h
    rw [Nat.sub_zero] at h4
    exact ⟨by omega, h3, h4⟩
  · intro doc iters h
    obtain ⟨h1, h2⟩ :=
      (runFixpoint_spec (catalogPass fixCommandsRules) cap 0 d doc iters).2 h
    exact ⟨by omega, h2⟩

theorem spec_C7_witness :
    runFixpoint (catalogPass fixCommandsRules) fixpointDefaultCap 0 docNone
      = .converged docNone 0
  ∧ (catalogPass fixCommandsRules docNone).2 = 0
  ∧ docNone = iteratePass (catalogPass fixCommandsRules) 0 docNone := by
  refine ⟨by decide, ?_, ?_⟩
  · exact ((spec_C7_fixpoint_cap fixpointDefaultCap docNone).1 docNone 0
      (by decide)).2.1
  · exact ((spec_C7_fixpoint_cap fixpointDefaultCap docNone).1 docNone 0
      (by decide)).2.2

/-- C8 (amended): a rule whose replacement template references a group its
pattern does not define raises `invalid group reference` — and the exception
aborts the whole script before anything is written: no substitution count is
recorded, no later rule runs, and the disk is untouched.  The failure is
fatal to the run, not "to that pattern only". -/
theorem spec_C8_template_error_fatal (r : Rule) (rest : List Rule) (d : Str)
    (h : ngroups r.pat < tmplMaxGrp r.tmpl) :
    runScript (r :: rest) d =
      ({ disk := d, buf := d, counts := [], writes := 0 },
        some (groupRefErr (tmplMaxGrp r.tmpl))) :=
  runScript_first_rule_err r rest d h

theorem spec_C8_witness :
    ngroups badRule.pat < tmplMaxGrp badRule.tmpl
  ∧ runScript [badRule, ruleR2] docConn =
      ({ disk := docConn, buf := docConn, counts := [], writes := 0 },
        some (groupRefErr (tmplMaxGrp badRule.tmpl))) :=
  ⟨by decide, spec_C8_template_error_fatal badRule [ruleR2] docConn (by decide)⟩

set_option maxRecDepth 10000 in
/-- C8 counterexample: with a first rule whose template references group 3
(undefined), the script aborts with the error, writes nothing — and the
second rule never runs even though it would have substituted once on the
document. -/
theorem spec_C8_counterexample :
    runScript [badRule, ruleR2] docConn =
      ({ disk := docConn, buf := docConn, counts := [], writes := 0 },
        some (groupRefErr 3))
  ∧ subn patAtomsR2 tmplR2 docConn =
      ("x = get_connection(&get_db_path(&app)?);".data, 1) := by
  refine ⟨rfl, by decide⟩

/-- C9: no replacement a catalog rule produces matches its own pattern or an
earlier rule's pattern: rule 1 of `fix_commands.py` instantiated at any
captures an actual match produces, and the fixed replacements of
`fix_all_db_paths.py`, rule 2 of `fix_commands.py` (also against the earlier
rule 1), `fix_commands2.py` and `fix_db_paths_v2.py`. -/
theorem spec_C9_replacement_no_self_match (s pre m rest : Str)
    (caps : List Str)
    (hf : findFirst patAtomsR1 s = some (pre, caps, m, rest)) :
    ¬ Occurs patAtomsR1 (instT tmplR1 caps)
  ∧ ¬ Occurs patAtomsA repA
  ∧ ¬ Occurs patAtomsR2 repR2
  ∧ ¬ Occurs patAtomsR1 repR2
  ∧ ¬ Occurs patAtomsB repB
  ∧ ¬ Occurs patAtomsV2 repV2 := by
  refine ⟨?_, not_occurs_of_findFirst_none (by decide),
    not_occurs_of_findFirst_none (by decide),
    not_occurs_of_findFirst_none (by decide),
    not_occurs_of_findFirst_none (by decide),
    not_occurs_of_findFirst_none (by decide)⟩
  have hM := findFirstR1_matched_shape hf
  obtain ⟨g1, gap, g2, hm, hg1ne, hg1w, hgapc, hg2c, hcapsEq⟩ :=
    matchesR1_shape hM
  obtain ⟨g1', g2', hcaps', hnsub, -⟩ := findFirstR1_props hf
  obtain ⟨hg1id, hg2id⟩ : g1 = g1' ∧ g2 = g2' := by
    have h12 := hcapsEq.symm.trans hcaps'
    simpa using h12
  rw [hcapsEq, instR1_eval]
  intro hocc
  rw [occurs_R1_iff_core] at hocc
  obtain ⟨x, mo, y, capso, hot, hMo⟩ := hocc
  obtain ⟨go1, gapo, hmo, -, -, -, -⟩ := matchesR1core_shape hMo
  have hsdb : SubOf sDb mo :=
    ⟨sPub ++ (go1 ++ ("(".data ++ gapo)), [], by rw [hmo]; simp⟩
  refine sDb_not_sub_inst hg1w ?_ (subOf_trans hsdb ⟨x, y, hot⟩)
  rw [hg2id]
  exact hnsub

set_option maxRecDepth 10000 in
theorem spec_C9_witness :
    findFirst patAtomsR1 docCmds = some ([], ["get_novel".data, ", id: i64".data],
      docCmdsM, docCmdsRest)
  ∧ (¬ Occurs patAtomsR1 (instT tmplR1 ["get_novel".data, ", id: i64".data])
      ∧ ¬ Occurs patAtomsA repA
      ∧ ¬ Occurs patAtomsR2 repR2
      ∧ ¬ Occurs patAtomsR1 repR2
      ∧ ¬ Occurs patAtomsB repB
      ∧ ¬ Occurs patAtomsV2 repV2) :=
  ⟨by decide, spec_C9_replacement_no_self_match docCmds []
    docCmdsM docCmdsRest ["get_novel".data, ", id: i64".data] (by decide)⟩

/-- C10: error atomicity — every script substitutes on an in-memory copy and
writes only as its final statement, so a run that raises in any matching or
substitution step leaves the on-disk content exactly as it was and has
performed no write. -/
theorem spec_C10_error_preserves_disk (rules : List Rule) (d e : Str)
    (h : (runScript rules d).2 = some e) :
    (runScript rules d).1.disk = d ∧ (runScript rules d).1.writes = 0 := by
  have hkey : runScript rules d = ((runScript rules d).1, some e) := by
    rw [Prod.ext_iff]
    exact ⟨rfl, h⟩
  have hframe := runStmts_err_frame rules
    { disk := d, buf := d, counts := [], writes := 0 } (runScript rules d).1 e hkey
  simpa using hframe

theorem spec_C10_witness :
    (runScript [badRule] docConn).2 = some (groupRefErr 3)
  ∧ (runScript [badRule] docConn).1.disk = docConn
  ∧ (runScript [badRule] docConn).1.writes = 0 :=
  ⟨rfl, spec_C10_error_preserves_disk [badRule] docConn (groupRefErr 3) rfl⟩
